import Mathlib

/-!
Shallow embedding of the cache-learning application's simulation core
(memory simulator, cache simulator, exercise manager), together with
proofs of the specification's testable properties about it.

Modelling conventions:
- Python machine integers become Nat (addresses handed to the cache) or
  Int (addresses handed to the memory simulator, whose range check is
  signed); Python floor division // is Int.fdiv, and the bit tricks
  x & ((1 << k) - 1) and x >> k on non-negative ints are x % 2 ^ k and
  x / 2 ^ k.
- Mutating methods become functions from state to state; methods that can
  raise (ValueError for an out-of-range memory access, a negative shift
  count in address decomposition) return Except String.
- The memory dictionary, which the simulator fills with a zero for every
  word-aligned address up front and reads with .get(addr, 0), is modelled
  observationally as a total function from word-aligned addresses to
  values, initially constant zero; the modified-addresses set becomes a
  Boolean-valued function.
- int(math.log2 n) is modelled as the executable floor logarithm ilog2,
  which agrees with Nat.log2; the Python expression agrees with the
  integer floor on every argument that is relevant here (math.log2 is
  exact on powers of two and the float truncation matches the floor on
  all small arguments).
-/

namespace CacheApp

/-- Fuel-driven floor logarithm base 2, structurally recursive so that the
kernel can evaluate it on literals. -/
def log2Fuel : Nat → Nat → Nat
  | 0, _ => 0
  | fuel + 1, n => if 2 ≤ n then log2Fuel fuel (n / 2) + 1 else 0

/-- Floor of log2, the value Python's int(math.log2 n) produces on the
arguments that occur here; agrees with Nat.log2 (see ilog2_eq_log2). -/
def ilog2 (n : Nat) : Nat := log2Fuel n n

/-! ## Memory simulator (memory_simulator.py) -/

/-- State of a MemorySimulator: size in bytes, the word store
(dictionary defaulting to 0) and the modified-addresses set. -/
structure MemorySimulator where
  sizeBytes : Nat
  mem : Nat → Nat
  modified : Nat → Bool

/-- MemorySimulator.__init__ with size_kb (default 64): all words zero,
nothing modified. -/
def MemorySimulator.init (sizeKb : Nat) : MemorySimulator :=
  { sizeBytes := sizeKb * 1024
    mem := fun _ => 0
    modified := fun _ => false }

/-- MemorySimulator.read: align the address down to a multiple of 4 with
floor division, raise ValueError if the aligned address is out of
[0, size_bytes), otherwise return the stored word (0 if absent). -/
def MemorySimulator.read (m : MemorySimulator) (address : Int) : Except String Nat :=
  let address := address.fdiv 4 * 4
  if address < 0 ∨ (m.sizeBytes : Int) ≤ address then
    .error "Address out of range"
  else
    .ok (m.mem address.toNat)

/-- MemorySimulator.write: align the address down, raise ValueError if the
aligned address is out of range, otherwise store the word and record the
address as modified. -/
def MemorySimulator.write (m : MemorySimulator) (address : Int) (value : Nat) :
    Except String MemorySimulator :=
  let address := address.fdiv 4 * 4
  if address < 0 ∨ (m.sizeBytes : Int) ≤ address then
    .error "Address out of range"
  else
    .ok { m with
          mem := fun a => if a = address.toNat then value else m.mem a
          modified := fun a => if a = address.toNat then true else m.modified a }

/-- MemorySimulator.read_block: n sequential word reads, 4 bytes apart,
starting at the aligned start address. -/
def MemorySimulator.read_block (m : MemorySimulator) (startAddress : Int) (n : Nat) :
    Except String (List Nat) :=
  let s := startAddress.fdiv 4 * 4
  (List.range n).mapM fun i => m.read (s + 4 * i)

/-- Loop body of MemorySimulator.write_block: write each word at
consecutive word addresses. -/
def MemorySimulator.writeWords : MemorySimulator → Int → List Nat → Except String MemorySimulator
  | m, _, [] => .ok m
  | m, a, v :: vs => do
      let m' ← m.write a v
      MemorySimulator.writeWords m' (a + 4) vs

/-- MemorySimulator.write_block: write the data words at consecutive
addresses starting at the aligned start address. -/
def MemorySimulator.write_block (m : MemorySimulator) (startAddress : Int) (data : List Nat) :
    Except String MemorySimulator :=
  MemorySimulator.writeWords m (startAddress.fdiv 4 * 4) data

/-- MemorySimulator.reset: back to the all-zero initial state. -/
def MemorySimulator.reset (m : MemorySimulator) : MemorySimulator :=
  { m with mem := fun _ => 0, modified := fun _ => false }

/-! ## Cache simulator (cache_simulator.py) -/

/-- A single cache entry (class CacheEntry). -/
structure CacheEntry where
  valid : Bool := false
  tag : Nat := 0
  data : List Nat := []
  dirty : Bool := false
  useBit : Nat := 0
  blockStartAddress : Nat := 0
deriving Repr, DecidableEq, Inhabited

/-- CacheEntry.__init__ with a given block size: invalid, zero tag, a block
of zero words, clean, use counter 0. -/
def CacheEntry.mk0 (blockSizeWords : Nat) : CacheEntry :=
  { data := List.replicate blockSizeWords 0 }

/-- State of a CacheSimulator.  The Python object keeps a single CacheEntry
per set when direct-mapped and a list of entries per set otherwise; both
are modelled as a list of ways (a singleton list when direct-mapped). -/
structure CacheSimulator where
  cacheSizeSlots : Nat
  blockSizeWords : Nat
  associativity : Nat
  /-- write_policy == write-back (False means write-through). -/
  writeBack : Bool
  /-- The borrowed MemorySimulator, or None. -/
  memory : Option MemorySimulator
  byteOffsetBits : Nat
  blockOffsetBits : Nat
  blockIndexBits : Nat
  /-- tag_bits is a plain Python int and can be negative for oversized
  configurations; no validation occurs anywhere. -/
  tagBits : Int
  sets : List (List CacheEntry)
  hits : Nat
  misses : Nat

/-- CacheSimulator._initialize_cache: every set is one fresh entry when
direct-mapped, a list of associativity fresh entries otherwise. -/
def CacheSimulator.initialCache (cacheSizeSlots blockSizeWords associativity : Nat) :
    List (List CacheEntry) :=
  if associativity = 1 then
    List.replicate cacheSizeSlots [CacheEntry.mk0 blockSizeWords]
  else
    List.replicate cacheSizeSlots (List.replicate associativity (CacheEntry.mk0 blockSizeWords))

/-- CacheSimulator.__init__: record the configuration, derive the address
bit breakdown (16 total bits, 4 bytes per word), build the empty cache and
zero the counters.  No configuration validation of any kind is performed. -/
def CacheSimulator.init (cacheSizeSlots blockSizeWords associativity : Nat)
    (writeBack : Bool) (memory : Option MemorySimulator) : CacheSimulator :=
  let byteOffsetBits := ilog2 4
  let blockOffsetBits := ilog2 blockSizeWords
  let blockIndexBits := ilog2 cacheSizeSlots
  { cacheSizeSlots, blockSizeWords, associativity, writeBack, memory
    byteOffsetBits, blockOffsetBits, blockIndexBits
    tagBits := (16 : Int) - blockIndexBits - blockOffsetBits - byteOffsetBits
    sets := CacheSimulator.initialCache cacheSizeSlots blockSizeWords associativity
    hits := 0
    misses := 0 }

/-- CacheSimulator.calculate_address_components: successive mask-and-shift
extraction of byte offset, block offset, block index and tag.  The final
mask (1 << tag_bits) - 1 raises in Python when tag_bits is negative. -/
def CacheSimulator.calculate_address_components (c : CacheSimulator) (address : Nat) :
    Except String (Nat × Nat × Nat × Nat) :=
  let byteOffset := address % 2 ^ c.byteOffsetBits
  let a1 := address / 2 ^ c.byteOffsetBits
  let blockOffset := a1 % 2 ^ c.blockOffsetBits
  let a2 := a1 / 2 ^ c.blockOffsetBits
  let blockIndex := a2 % 2 ^ c.blockIndexBits
  let a3 := a2 / 2 ^ c.blockIndexBits
  if c.tagBits < 0 then .error "negative shift count"
  else .ok (a3 % 2 ^ c.tagBits.toNat, blockIndex, blockOffset, byteOffset)

/-- CacheSimulator._get_block_start_address: clear the byte-offset and
block-offset bits. -/
def CacheSimulator.getBlockStartAddress (c : CacheSimulator) (address : Nat) : Nat :=
  address / 2 ^ (c.byteOffsetBits + c.blockOffsetBits) * 2 ^ (c.byteOffsetBits + c.blockOffsetBits)

/-- CacheSimulator._find_entry_in_set, returning the way index of the
matching entry rather than the entry object.  The Python direct-mapped
branch inspects the single entry of the set, which coincides with the scan
on its singleton ways list. -/
def CacheSimulator.findEntryInSet (ways : List CacheEntry) (tag : Nat) : Option Nat :=
  ways.findIdx? fun e => e.valid && e.tag == tag

/-- The scan loop of CacheSimulator._select_victim_entry: return the first
invalid entry, otherwise the first entry achieving the smallest use
counter. -/
def selectVictimLoop : List CacheEntry → Nat → Nat → Nat → Nat
  | [], _, best, _ => best
  | e :: rest, i, best, bestUse =>
    if !e.valid then i
    else if e.useBit < bestUse then selectVictimLoop rest (i + 1) i e.useBit
    else selectVictimLoop rest (i + 1) best bestUse

/-- CacheSimulator._select_victim_entry, returning the way index of the
victim.  Direct-mapped caches use the single entry of the set; Python
faults on an empty ways list (entries[0]), which cannot occur. -/
def CacheSimulator.selectVictimEntry (c : CacheSimulator) (ways : List CacheEntry) : Nat :=
  if c.associativity = 1 then 0
  else
    match ways with
    | [] => 0
    | e0 :: _ => selectVictimLoop ways 0 0 e0.useBit

/-- CacheSimulator._update_lru: for set-associative caches stamp the
accessed entry with 1 + the maximum use counter among valid entries of the
set (the Python max over a generator is a fold here; the generator is
nonempty because the accessed entry is always valid at the call sites). -/
def CacheSimulator.updateLRU (c : CacheSimulator) (ways : List CacheEntry) (idx : Nat) :
    List CacheEntry :=
  if 1 < c.associativity then
    let maxUse := ((ways.filter fun e => e.valid).foldl (fun mx e => max mx e.useBit) 0)
    ways.set idx { ways.getD idx default with useBit := maxUse + 1 }
  else ways

/-- CacheSimulator._load_block_from_memory: read the block from memory, or
a block of zeros when no memory simulator is attached. -/
def CacheSimulator.loadBlockFromMemory (c : CacheSimulator) (blockStartAddress : Nat) :
    Except String (List Nat) :=
  match c.memory with
  | some m => m.read_block blockStartAddress c.blockSizeWords
  | none => .ok (List.replicate c.blockSizeWords 0)

/-- CacheSimulator._write_back_if_needed: under write-back, flush a dirty
entry's block to memory at the given block start address and clean it,
returning the updated entry and memory. -/
def CacheSimulator.writeBackIfNeeded (c : CacheSimulator) (e : CacheEntry)
    (blockStartAddress : Nat) : Except String (CacheEntry × Option MemorySimulator) :=
  match c.memory with
  | some m =>
      if c.writeBack && e.dirty then do
        let m' ← m.write_block blockStartAddress e.data
        .ok ({ e with dirty := false }, some m')
      else .ok (e, some m)
  | none => .ok (e, none)

/-- CacheSimulator.read: decompose the address, scan the target set; on a
hit bump the hit counter, read the word and refresh the LRU stamp; on a
miss bump the miss counter, load the block from memory, pick a victim,
write the victim back if it is valid (and dirty, under write-back),
install the new block clean and refresh the LRU stamp.  Returns the
hit/miss flag, the value read and the new cache state. -/
def CacheSimulator.read (c : CacheSimulator) (address : Nat) :
    Except String (Bool × Nat × CacheSimulator) := do
  let (tag, blockIndex, blockOffset, _byteOffset) ← c.calculate_address_components address
  let blockStartAddress := c.getBlockStartAddress address
  let ways := c.sets.getD blockIndex []
  match CacheSimulator.findEntryInSet ways tag with
  | some i =>
      let e := ways.getD i default
      let c1 := { c with hits := c.hits + 1 }
      let value := e.data.getD blockOffset 0
      let ways' := c1.updateLRU ways i
      .ok (true, value, { c1 with sets := c1.sets.set blockIndex ways' })
  | none =>
      let c1 := { c with misses := c.misses + 1 }
      let blockData ← c1.loadBlockFromMemory blockStartAddress
      let vIdx := c1.selectVictimEntry ways
      let victim := ways.getD vIdx default
      let (victim', mem') ←
        if victim.valid then c1.writeBackIfNeeded victim victim.blockStartAddress
        else .ok (victim, c1.memory)
      let c2 := { c1 with memory := mem' }
      let newEntry := { victim' with
                        valid := true, tag := tag, data := blockData,
                        dirty := false, blockStartAddress := blockStartAddress }
      let ways' := c2.updateLRU (ways.set vIdx newEntry) vIdx
      let value := blockData.getD blockOffset 0
      .ok (false, value, { c2 with sets := c2.sets.set blockIndex ways' })

/-- CacheSimulator.write: decompose the address and scan the target set.
On a hit update the word in place, then mark dirty (write-back) or write
the single word through to memory (write-through), and refresh the LRU
stamp.  On a miss, write-through sends the single word to memory and does
not touch the cache (no write-allocate); write-back fetches the block,
applies the write at the block offset, writes a valid victim back if
needed, installs the new block valid and dirty, and refreshes the LRU
stamp. -/
def CacheSimulator.write (c : CacheSimulator) (address : Nat) (value : Nat) :
    Except String (Bool × CacheSimulator) := do
  let (tag, blockIndex, blockOffset, _byteOffset) ← c.calculate_address_components address
  let blockStartAddress := c.getBlockStartAddress address
  let ways := c.sets.getD blockIndex []
  match CacheSimulator.findEntryInSet ways tag with
  | some i =>
      let e := ways.getD i default
      let c1 := { c with hits := c.hits + 1 }
      let e' := { e with data := e.data.set blockOffset value }
      if c1.writeBack then
        let e2 := { e' with dirty := true }
        let ways' := c1.updateLRU (ways.set i e2) i
        .ok (true, { c1 with sets := c1.sets.set blockIndex ways' })
      else do
        let mem' ←
          match c1.memory with
          | some m => do
              let m' ← m.write (address : Int) value
              pure (some m')
          | none => pure (none : Option MemorySimulator)
        let ways' := c1.updateLRU (ways.set i e') i
        .ok (true, { c1 with memory := mem', sets := c1.sets.set blockIndex ways' })
  | none =>
      let c1 := { c with misses := c.misses + 1 }
      if !c1.writeBack then do
        let mem' ←
          match c1.memory with
          | some m => do
              let m' ← m.write (address : Int) value
              pure (some m')
          | none => pure (none : Option MemorySimulator)
        .ok (false, { c1 with memory := mem' })
      else do
        let blockData ← c1.loadBlockFromMemory blockStartAddress
        let blockData' := blockData.set blockOffset value
        let vIdx := c1.selectVictimEntry ways
        let victim := ways.getD vIdx default
        let (victim', mem') ←
          if victim.valid then c1.writeBackIfNeeded victim victim.blockStartAddress
          else .ok (victim, c1.memory)
        let c2 := { c1 with memory := mem' }
        let newEntry := { victim' with
                          valid := true, tag := tag, data := blockData',
                          dirty := true, blockStartAddress := blockStartAddress }
        let ways' := c2.updateLRU (ways.set vIdx newEntry) vIdx
        .ok (false, { c2 with sets := c2.sets.set blockIndex ways' })

/-- CacheSimulator.reset: reinitialize the cache structure and zero the
counters (memory is untouched). -/
def CacheSimulator.reset (c : CacheSimulator) : CacheSimulator :=
  { c with
    sets := CacheSimulator.initialCache c.cacheSizeSlots c.blockSizeWords c.associativity
    hits := 0
    misses := 0 }

/-! ## Exercise manager (exercise_manager.py) -/

/-- An ExerciseOperation: kind (read or write), address, and the value for
writes (Python keeps an Optional value that is None and unused for
reads). -/
structure ExerciseOperation where
  isRead : Bool
  address : Nat
  value : Nat := 0
deriving Repr, DecidableEq, Inhabited

/-- State of an ExerciseManager.  The Python object holds references to
the cache and the memory object the cache borrows; here the single shared
MemorySimulator lives inside the cache field.  attempts_per_question is
the dictionary read with .get(idx, 0), modelled as a total function. -/
structure ExerciseManager where
  cache : CacheSimulator
  operations : List ExerciseOperation
  currentOperationIndex : Nat
  attemptsPerQuestion : Nat → Nat
  maxAttempts : Nat

/-- Dictionary update for attempts_per_question. -/
def setAttempt (f : Nat → Nat) (i v : Nat) : Nat → Nat :=
  fun j => if j = i then v else f j

/-- ExerciseManager.get_current_operation: the operation at the cursor, or
none if the cursor is out of range. -/
def ExerciseManager.get_current_operation (m : ExerciseManager) : Option ExerciseOperation :=
  m.operations[m.currentOperationIndex]?

/-- ExerciseManager.get_attempts_for_current: attempts recorded for the
current cursor position (0 when absent). -/
def ExerciseManager.get_attempts_for_current (m : ExerciseManager) : Nat :=
  m.attemptsPerQuestion m.currentOperationIndex

/-- ExerciseManager.go_to_operation: jump to an in-range index, ignored
otherwise. -/
def ExerciseManager.go_to_operation (m : ExerciseManager) (i : Nat) : ExerciseManager :=
  if i < m.operations.length then { m with currentOperationIndex := i } else m

/-- ExerciseManager.next_operation: advance the cursor when a next
operation exists (has_next: index < len - 1). -/
def ExerciseManager.next_operation (m : ExerciseManager) : ExerciseManager :=
  if m.currentOperationIndex < m.operations.length - 1 then
    { m with currentOperationIndex := m.currentOperationIndex + 1 }
  else m

/-- ExerciseManager.previous_operation: retreat the cursor when it is
positive (has_previous: index > 0). -/
def ExerciseManager.previous_operation (m : ExerciseManager) : ExerciseManager :=
  if 0 < m.currentOperationIndex then
    { m with currentOperationIndex := m.currentOperationIndex - 1 }
  else m

/-- The operation execution shared by validate_hit_miss and
get_correct_hit_miss: perform the current operation against the cache and
return the observed hit flag together with the updated manager. -/
def ExerciseManager.runCurrentOp (m : ExerciseManager) (op : ExerciseOperation) :
    Except String (Bool × ExerciseManager) :=
  if op.isRead then do
    let (hit, _value, c') ← m.cache.read op.address
    .ok (hit, { m with cache := c' })
  else do
    let (hit, c') ← m.cache.write op.address op.value
    .ok (hit, { m with cache := c' })

/-- ExerciseManager.validate_hit_miss: compare the student's hit/miss
answer with the actual result, computing the actual result by performing
the current operation when none is supplied.  A correct answer resets the
question's attempt count to 0; an incorrect answer increments it and, on
reaching max_attempts, reveals the answer and signals auto-advance. -/
def ExerciseManager.validate_hit_miss (m : ExerciseManager) (studentAnswer : Bool)
    (actualHit : Option Bool) : Except String ((Bool × Bool × String) × ExerciseManager) := do
  match m.get_current_operation with
  | none => .ok ((false, false, "No current operation"), m)
  | some op =>
      let (actual, m1) ←
        match actualHit with
        | some h => pure (h, m)
        | none => m.runCurrentOp op
      let isCorrect := actual == studentAnswer
      let attempts := m1.get_attempts_for_current
      if isCorrect then
        .ok ((true, true, "Correct!"),
          { m1 with attemptsPerQuestion :=
              setAttempt m1.attemptsPerQuestion m1.currentOperationIndex 0 })
      else
        let attempts := attempts + 1
        let m2 := { m1 with
          attemptsPerQuestion :=
            setAttempt m1.attemptsPerQuestion m1.currentOperationIndex attempts }
        if m2.maxAttempts ≤ attempts then
          let word := if actual then "Hit" else "Miss"
          .ok ((false, true, s!"Incorrect. The correct answer is {word}."), m2)
        else
          .ok ((false, false, "Incorrect, try again."), m2)

/-- ExerciseManager.validate_address_decomposition: compare all four
student fields against the decomposition computed by the cache for the
current operation's address; attempt accounting mirrors
validate_hit_miss.  The cache and memory are never touched. -/
def ExerciseManager.validate_address_decomposition (m : ExerciseManager)
    (tag blockIndex byteOffset blockOffset : Nat) :
    Except String ((Bool × Bool × String) × ExerciseManager) := do
  match m.get_current_operation with
  | none => .ok ((false, false, "No current operation"), m)
  | some op =>
      let (correctTag, correctBlockIndex, correctBlockOffset, correctByteOffset) ←
        m.cache.calculate_address_components op.address
      let tagCorrect := tag == correctTag
      let blockIndexCorrect := blockIndex == correctBlockIndex
      let byteOffsetCorrect := byteOffset == correctByteOffset
      let blockOffsetCorrect := blockOffset == correctBlockOffset
      let allCorrect := tagCorrect && blockIndexCorrect && byteOffsetCorrect && blockOffsetCorrect
      let attempts := m.get_attempts_for_current
      if allCorrect then
        .ok ((true, true, "Correct!"),
          { m with attemptsPerQuestion :=
              setAttempt m.attemptsPerQuestion m.currentOperationIndex 0 })
      else
        let attempts := attempts + 1
        let m2 := { m with
          attemptsPerQuestion :=
            setAttempt m.attemptsPerQuestion m.currentOperationIndex attempts }
        if m2.maxAttempts ≤ attempts then
          let feedback :=
            s!"Incorrect. Correct answer: Tag={correctTag}, BlockIdx={correctBlockIndex}, " ++
            s!"BlockOff={correctBlockOffset}, ByteOff={correctByteOffset}"
          .ok ((false, true, feedback), m2)
        else
          let errors :=
            (if tagCorrect then [] else [s!"Tag (correct: {correctTag})"]) ++
            (if blockIndexCorrect then [] else [s!"Block Index (correct: {correctBlockIndex})"]) ++
            (if blockOffsetCorrect then [] else [s!"Block Offset (correct: {correctBlockOffset})"]) ++
            (if byteOffsetCorrect then [] else [s!"Byte Offset (correct: {correctByteOffset})"])
          let joined := String.intercalate ", " errors
          .ok ((false, false, s!"Incorrect: {joined}. Try again."), m2)

/-- ExerciseManager.get_correct_hit_miss: despite the docstring promising
no side effect, the method performs the current operation against the
cache to obtain its hit/miss result (its comment admits this stopgap). -/
def ExerciseManager.get_correct_hit_miss (m : ExerciseManager) :
    Except String (Bool × ExerciseManager) := do
  match m.get_current_operation with
  | none => .ok (false, m)
  | some op => m.runCurrentOp op

/-- ExerciseManager.load_exercise: replace the sequence, rewind the cursor,
clear all attempt counts and optionally reset the cache and the shared
memory to their zero state. -/
def ExerciseManager.load_exercise (m : ExerciseManager) (ops : List ExerciseOperation)
    (resetCache : Bool) : ExerciseManager :=
  let m1 := { m with operations := ops, currentOperationIndex := 0,
                     attemptsPerQuestion := fun _ => 0 }
  if resetCache then
    let c := m1.cache.reset
    { m1 with cache := { c with memory := c.memory.map MemorySimulator.reset } }
  else m1

/-- ExerciseManager.reset_to_beginning: rewind the cursor, clear all
attempt counts, reset the cache and the shared memory. -/
def ExerciseManager.reset_to_beginning (m : ExerciseManager) : ExerciseManager :=
  let c := m.cache.reset
  { m with currentOperationIndex := 0, attemptsPerQuestion := fun _ => 0,
           cache := { c with memory := c.memory.map MemorySimulator.reset } }

/-! ## Reachability relations and concrete scenarios used by the claims -/

/-- Cache states reachable from a given state by read and write operations
that complete without an exception. -/
inductive Reach (c0 : CacheSimulator) : CacheSimulator → Prop
  | refl : Reach c0 c0
  | readStep {c c' : CacheSimulator} {a : Nat} {h : Bool} {v : Nat} :
      Reach c0 c → c.read a = .ok (h, v, c') → Reach c0 c'
  | writeStep {c c' : CacheSimulator} {a v : Nat} {h : Bool} :
      Reach c0 c → c.write a v = .ok (h, c') → Reach c0 c'

/-- No two valid lines of one set hold the same tag. -/
def NoDupValidTags (ways : List CacheEntry) : Prop :=
  ∀ i j, i < ways.length → j < ways.length → i ≠ j →
    (ways.getD i default).valid = true → (ways.getD j default).valid = true →
    (ways.getD i default).tag ≠ (ways.getD j default).tag

/-- Iterated cache reads: the list of hit/miss flags and the final state. -/
def readSeq (c : CacheSimulator) : List Nat → Except String (List Bool × CacheSimulator)
  | [] => .ok ([], c)
  | a :: as => do
      let (h, _v, c') ← c.read a
      let (hs, c'') ← readSeq c' as
      .ok (h :: hs, c'')

/-- Configuration and memory fields that cache operations never change;
used to carry decomposition and load results across a scenario. -/
def FrameInv (c0 c : CacheSimulator) : Prop :=
  c.byteOffsetBits = c0.byteOffsetBits ∧ c.blockOffsetBits = c0.blockOffsetBits ∧
  c.blockIndexBits = c0.blockIndexBits ∧ c.tagBits = c0.tagBits ∧
  c.memory = c0.memory ∧ c.blockSizeWords = c0.blockSizeWords ∧
  c.associativity = c0.associativity ∧ c.sets.length = c0.sets.length

/-- The use counters of the first k ways are pairwise distinct. -/
def UseDistinct (k : Nat) (ways : List CacheEntry) : Prop :=
  ∀ i j, i < k → j < k → i ≠ j →
    (ways.getD i default).useBit ≠ (ways.getD j default).useBit

/-- Invariant of the LRU scenario after filling the target set with the
first k tags: the first k ways are valid, clean and hold the tags in
order with pairwise distinct use counters, and the remaining ways are
still in their initial state. -/
def FillInv (c0 : CacheSimulator) (s : Nat) (ts : List Nat) (k : Nat)
    (c : CacheSimulator) : Prop :=
  FrameInv c0 c ∧
  (c.sets.getD s []).length = c0.associativity ∧
  (∀ j, j < k → ((c.sets.getD s []).getD j default).valid = true ∧
    ((c.sets.getD s []).getD j default).tag = ts.getD j 0 ∧
    ((c.sets.getD s []).getD j default).dirty = false) ∧
  (∀ j, k ≤ j → j < c0.associativity →
    (c.sets.getD s []).getD j default = CacheEntry.mk0 c0.blockSizeWords) ∧
  UseDistinct k (c.sets.getD s [])

/-- Exercise-manager states reachable by navigation, loading, resetting and
grading, where a question is never graded again once its attempt count has
reached max_attempts (the usage pattern the specification's freezing rule
describes). -/
inductive MgrReach (m0 : ExerciseManager) : ExerciseManager → Prop
  | refl : MgrReach m0 m0
  | gradeHitMiss {m m' : ExerciseManager} {r : Bool × Bool × String} {sa : Bool}
      {ah : Option Bool} :
      MgrReach m0 m → m.get_attempts_for_current < m.maxAttempts →
      m.validate_hit_miss sa ah = .ok (r, m') → MgrReach m0 m'
  | gradeDecomposition {m m' : ExerciseManager} {r : Bool × Bool × String}
      {t bi byo bo : Nat} :
      MgrReach m0 m → m.get_attempts_for_current < m.maxAttempts →
      m.validate_address_decomposition t bi byo bo = .ok (r, m') → MgrReach m0 m'
  | goTo {m : ExerciseManager} (i : Nat) :
      MgrReach m0 m → MgrReach m0 (m.go_to_operation i)
  | next {m : ExerciseManager} : MgrReach m0 m → MgrReach m0 m.next_operation
  | prev {m : ExerciseManager} : MgrReach m0 m → MgrReach m0 m.previous_operation
  | load {m : ExerciseManager} (ops : List ExerciseOperation) (rc : Bool) :
      MgrReach m0 m → MgrReach m0 (m.load_exercise ops rc)
  | restart {m : ExerciseManager} : MgrReach m0 m → MgrReach m0 m.reset_to_beginning

/-- A fresh session over a single read operation, used by the C6
scenario; the cache has 4 direct-mapped sets and no attached memory. -/
def c6Mgr0 : ExerciseManager :=
  { cache := CacheSimulator.init 4 1 1 false none
    operations := [{ isRead := true, address := 0 }]
    currentOperationIndex := 0
    attemptsPerQuestion := fun _ => 0
    maxAttempts := 2 }

/-- One hit/miss grading call with a wrong answer against a supplied
ground truth, keeping the resulting manager state. -/
def c6After (m : ExerciseManager) : ExerciseManager :=
  match m.validate_hit_miss false (some true) with
  | .ok (_, m') => m'
  | .error _ => m

/-- A fresh session over a single read operation with a real 64 KB
memory attached, used by the C7 scenario. -/
def c7Mgr : ExerciseManager :=
  { cache := CacheSimulator.init 4 1 1 false (some (MemorySimulator.init 64))
    operations := [{ isRead := true, address := 0 }]
    currentOperationIndex := 0
    attemptsPerQuestion := fun _ => 0
    maxAttempts := 2 }

/-- One ground-truth query (get_correct_hit_miss), keeping the answer and
the resulting manager state. -/
def c7Step (m : ExerciseManager) : Bool × ExerciseManager :=
  match m.get_correct_hit_miss with
  | .ok (h, m') => (h, m')
  | .error _ => (true, m)

/-- A direct-mapped write-back cache whose set 0 holds a valid dirty line
(tag 0, data word 7, origin address 0), used by the C3 witness.  The
derived bit widths match CacheSimulator(4, 1, 1, write-back). -/
def c3Cache : CacheSimulator :=
  { cacheSizeSlots := 4
    blockSizeWords := 1
    associativity := 1
    writeBack := true
    memory := some (MemorySimulator.init 64)
    byteOffsetBits := 2
    blockOffsetBits := 0
    blockIndexBits := 2
    tagBits := 12
    sets := [[{ valid := true, tag := 0, data := [7], dirty := true, useBit := 0,
                blockStartAddress := 0 }],
             [CacheEntry.mk0 1], [CacheEntry.mk0 1], [CacheEntry.mk0 1]]
    hits := 0
    misses := 0 }

/-- c3Cache after a write hit to address 0. -/
def c3AfterWrite : CacheSimulator :=
  match c3Cache.write 0 9 with
  | .ok (_, c') => c'
  | .error _ => c3Cache

/-- c3Cache after a read miss to address 16, which evicts the dirty line
of set 0. -/
def c3AfterRead : CacheSimulator :=
  match c3Cache.read 16 with
  | .ok (_, _, c') => c'
  | .error _ => c3Cache

/-- A fresh write-through direct-mapped cache used by the C4 witness. -/
def c4CacheWT : CacheSimulator :=
  CacheSimulator.init 4 1 1 false (some (MemorySimulator.init 64))

/-- c4CacheWT after a write miss to address 0. -/
def c4AfterWT : CacheSimulator :=
  match c4CacheWT.write 0 5 with
  | .ok (_, c') => c'
  | .error _ => c4CacheWT

/-- A fresh write-back 2-way cache used by the C4 witness. -/
def c4CacheWB : CacheSimulator :=
  CacheSimulator.init 4 1 2 true (some (MemorySimulator.init 64))

/-- c4CacheWB after a write miss to address 0. -/
def c4AfterWB : CacheSimulator :=
  match c4CacheWB.write 0 5 with
  | .ok (_, c') => c'
  | .error _ => c4CacheWB

/-- A fresh session over a single read operation, used by the C10
witness. -/
def c10Mgr : ExerciseManager :=
  { cache := CacheSimulator.init 4 1 1 false none
    operations := [{ isRead := true, address := 0 }]
    currentOperationIndex := 0
    attemptsPerQuestion := fun _ => 0
    maxAttempts := 2 }

/-- The manager state after one decomposition grading call on c10Mgr. -/
def c10Res : ExerciseManager :=
  match c10Mgr.validate_address_decomposition 0 0 0 0 with
  | .ok (_, m') => m'
  | .error _ => c10Mgr

/-- A fresh write-through 2-way cache with no attached memory, used by the
C2 witness.  Addresses 0, 16 and 32 all map to set 0 with tags 0, 1 and 2. -/
def c2Cache : CacheSimulator :=
  CacheSimulator.init 4 1 2 false none

/-- Equality of Except results is decidable when both component types have
decidable equality; used to evaluate the scenario hypotheses on concrete
inputs. -/
instance {e a : Type} [DecidableEq e] [DecidableEq a] : DecidableEq (Except e a)
  | .ok x, .ok y =>
      if h : x = y then .isTrue (congrArg Except.ok h)
      else .isFalse (fun he => h (Except.ok.inj he))
  | .ok _, .error _ => .isFalse (fun he => Except.noConfusion he)
  | .error _, .ok _ => .isFalse (fun he => Except.noConfusion he)
  | .error x, .error y =>
      if h : x = y then .isTrue (congrArg Except.error h)
      else .isFalse (fun he => h (Except.error.inj he))

/-! ## Generic helper lemmas -/

lemma log2Fuel_eq (f : Nat) : ∀ n, n ≤ f → log2Fuel f n = Nat.log2 n := by
  induction f with
  | zero =>
      intro n hn
      have : n = 0 := by omega
      subst this
      rw [log2Fuel, Nat.log2]
      norm_num
  | succ f ih =>
      intro n hn
      rw [log2Fuel, Nat.log2]
      by_cases h2 : 2 ≤ n
      · rw [if_pos h2, if_pos h2, ih (n / 2) (by omega)]
      · rw [if_neg h2, if_neg h2]

/-- The executable logarithm agrees with the library one. -/
lemma ilog2_eq_log2 (n : Nat) : ilog2 n = Nat.log2 n :=
  log2Fuel_eq n n le_rfl


/-- Bitwise or of a shifted field and a value fitting below the shift is
addition. -/
lemma or_shift_add {b k : Nat} (a : Nat) (hb : b < 2 ^ k) :
    2 ^ k * a ||| b = 2 ^ k * a + b :=
  (Nat.mul_add_lt_is_or hb a).symm

/-! ## Simp lemmas for the constructed simulator's fields -/

@[simp] lemma init_byteOffsetBits (s b a : Nat) (w : Bool) (m : Option MemorySimulator) :
    (CacheSimulator.init s b a w m).byteOffsetBits = 2 := rfl

@[simp] lemma init_blockOffsetBits (s b a : Nat) (w : Bool) (m : Option MemorySimulator) :
    (CacheSimulator.init s b a w m).blockOffsetBits = ilog2 b := rfl

@[simp] lemma init_blockIndexBits (s b a : Nat) (w : Bool) (m : Option MemorySimulator) :
    (CacheSimulator.init s b a w m).blockIndexBits = ilog2 s := rfl

@[simp] lemma init_tagBits (s b a : Nat) (w : Bool) (m : Option MemorySimulator) :
    (CacheSimulator.init s b a w m).tagBits = (16 : Int) - ilog2 s - ilog2 b - 2 := rfl

@[simp] lemma init_sets (s b a : Nat) (w : Bool) (m : Option MemorySimulator) :
    (CacheSimulator.init s b a w m).sets = CacheSimulator.initialCache s b a := rfl

@[simp] lemma init_hits (s b a : Nat) (w : Bool) (m : Option MemorySimulator) :
    (CacheSimulator.init s b a w m).hits = 0 := rfl

@[simp] lemma init_misses (s b a : Nat) (w : Bool) (m : Option MemorySimulator) :
    (CacheSimulator.init s b a w m).misses = 0 := rfl

@[simp] lemma init_memory (s b a : Nat) (w : Bool) (m : Option MemorySimulator) :
    (CacheSimulator.init s b a w m).memory = m := rfl

@[simp] lemma init_associativity (s b a : Nat) (w : Bool) (m : Option MemorySimulator) :
    (CacheSimulator.init s b a w m).associativity = a := rfl

@[simp] lemma init_blockSizeWords (s b a : Nat) (w : Bool) (m : Option MemorySimulator) :
    (CacheSimulator.init s b a w m).blockSizeWords = b := rfl

@[simp] lemma init_writeBack (s b a : Nat) (w : Bool) (m : Option MemorySimulator) :
    (CacheSimulator.init s b a w m).writeBack = w := rfl

/-! ## C1: address decomposition reassembles the address -/

/-- C1.  For every address A below 2^16 and every configuration whose bit
fields fit in 16 bits, calculate_address_components succeeds and the four
extracted fields, shifted back to their positions and or-ed together,
reassemble A exactly; with the byte offset replaced by 0 they reassemble
A aligned down to a multiple of 4. -/
theorem c1_decompose_reassembles (slots blockWords assoc : Nat) (wb : Bool)
    (mem0 : Option MemorySimulator) (A : Nat)
    (hbits : ilog2 slots + ilog2 blockWords <= 14) (hA : A < 65536) :
    ∃ t si bo byo,
      (CacheSimulator.init slots blockWords assoc wb mem0).calculate_address_components A
        = .ok (t, si, bo, byo) ∧
      (t <<< (ilog2 slots + ilog2 blockWords + 2) |||
        si <<< (ilog2 blockWords + 2) ||| bo <<< 2 ||| byo) = A ∧
      (t <<< (ilog2 slots + ilog2 blockWords + 2) |||
        si <<< (ilog2 blockWords + 2) ||| bo <<< 2 ||| 0) = A / 4 * 4 := by
  set ki := ilog2 slots with hki
  set ko := ilog2 blockWords with hko
  set r1 := A % 2 ^ 2 with hr1
  set q1 := A / 2 ^ 2 with hq1
  set r2 := q1 % 2 ^ ko with hr2
  set q2 := q1 / 2 ^ ko with hq2
  set r3 := q2 % 2 ^ ki with hr3
  set q3 := q2 / 2 ^ ki with hq3
  have htagpos : ¬ ((CacheSimulator.init slots blockWords assoc wb mem0).tagBits < 0) := by
    rw [init_tagBits]
    omega
  have htagval : (CacheSimulator.init slots blockWords assoc wb mem0).tagBits.toNat
      = 14 - ki - ko := by
    rw [init_tagBits]
    omega
  -- the tag keeps all remaining high bits, so the final mask is a no-op
  have hq3lt : q3 < 2 ^ (14 - ki - ko) := by
    have hdiv : q3 = A / 2 ^ (ki + (ko + 2)) := by
      rw [hq3, hq2, hq1, Nat.div_div_eq_div_mul, Nat.div_div_eq_div_mul]
      congr 1
      rw [pow_add, pow_add]
      ring
    rw [hdiv, Nat.div_lt_iff_lt_mul (by positivity), ← pow_add]
    have h16 : 14 - ki - ko + (ki + (ko + 2)) = 16 := by omega
    rw [h16]
    calc A < 65536 := hA
      _ ≤ 2 ^ 16 := by norm_num
  have hcalc : (CacheSimulator.init slots blockWords assoc wb mem0).calculate_address_components A
      = .ok (q3, r3, r2, r1) := by
    simp only [CacheSimulator.calculate_address_components, init_byteOffsetBits,
      init_blockOffsetBits, init_blockIndexBits, if_neg htagpos, htagval,
      ← hki, ← hko, ← hr1, ← hq1, ← hr2, ← hq2, ← hr3, ← hq3]
    rw [Nat.mod_eq_of_lt hq3lt]
  have hr3lt : r3 < 2 ^ ki := Nat.mod_lt _ (by positivity)
  have hr2lt : r2 < 2 ^ ko := Nat.mod_lt _ (by positivity)
  have hr1lt : r1 < 2 ^ 2 := Nat.mod_lt _ (by norm_num)
  -- reassembly of the shifted fields, with an arbitrary byte-offset field
  have key : ∀ x : Nat, x < 2 ^ 2 →
      (q3 <<< (ki + ko + 2) ||| r3 <<< (ko + 2) ||| r2 <<< 2 ||| x)
        = 2 ^ 2 * (2 ^ ko * (2 ^ ki * q3 + r3) + r2) + x := by
    intro x hx
    have h1 : q3 <<< (ki + ko + 2) ||| r3 <<< (ko + 2)
        = 2 ^ (ko + 2) * (2 ^ ki * q3 + r3) := by
      have hexp : ki + ko + 2 = ki + (ko + 2) := by omega
      have ha : q3 <<< (ki + ko + 2) = 2 ^ (ki + (ko + 2)) * q3 := by
        rw [Nat.shiftLeft_eq, hexp, Nat.mul_comm]
      have hb : r3 <<< (ko + 2) < 2 ^ (ki + (ko + 2)) := by
        rw [Nat.shiftLeft_eq]
        calc r3 * 2 ^ (ko + 2)
            < 2 ^ ki * 2 ^ (ko + 2) :=
              mul_lt_mul_of_pos_right hr3lt (pow_pos (show (0:Nat) < 2 by norm_num) (ko + 2))
          _ = 2 ^ (ki + (ko + 2)) := (pow_add 2 ki (ko + 2)).symm
      rw [ha, or_shift_add _ hb, Nat.shiftLeft_eq, pow_add]
      ring
    have h2 : 2 ^ (ko + 2) * (2 ^ ki * q3 + r3) ||| r2 <<< 2
        = 2 ^ 2 * (2 ^ ko * (2 ^ ki * q3 + r3) + r2) := by
      have hb : r2 <<< 2 < 2 ^ (ko + 2) := by
        rw [Nat.shiftLeft_eq]
        calc r2 * 2 ^ 2
            < 2 ^ ko * 2 ^ 2 :=
              mul_lt_mul_of_pos_right hr2lt (pow_pos (show (0:Nat) < 2 by norm_num) 2)
          _ = 2 ^ (ko + 2) := (pow_add 2 ko 2).symm
      rw [or_shift_add _ hb, Nat.shiftLeft_eq, pow_add]
      ring
    have h3 : 2 ^ 2 * (2 ^ ko * (2 ^ ki * q3 + r3) + r2) ||| x
        = 2 ^ 2 * (2 ^ ko * (2 ^ ki * q3 + r3) + r2) + x :=
      or_shift_add _ hx
    rw [h1, h2, h3]
  have e3 : 2 ^ ki * q3 + r3 = q2 := by
    rw [hq3, hr3]
    exact Nat.div_add_mod _ _
  have e2 : 2 ^ ko * q2 + r2 = q1 := by
    rw [hq2, hr2]
    exact Nat.div_add_mod _ _
  have e1 : 2 ^ 2 * q1 + r1 = A := by
    rw [hq1, hr1]
    exact Nat.div_add_mod _ _
  refine ⟨q3, r3, r2, r1, hcalc, ?_, ?_⟩
  · rw [key r1 hr1lt, e3, e2, e1]
  · rw [key 0 (by norm_num), e3, e2]
    rw [hq1]
    norm_num
    ring

/-- Witness for C1 at a concrete configuration and address. -/
theorem c1_witness :
    ilog2 256 + ilog2 4 <= 14 ∧ 51446 < 65536 ∧
    ∃ t si bo byo,
      (CacheSimulator.init 256 4 1 false none).calculate_address_components 51446
        = .ok (t, si, bo, byo) ∧
      (t <<< (ilog2 256 + ilog2 4 + 2) |||
        si <<< (ilog2 4 + 2) ||| bo <<< 2 ||| byo) = 51446 ∧
      (t <<< (ilog2 256 + ilog2 4 + 2) |||
        si <<< (ilog2 4 + 2) ||| bo <<< 2 ||| 0) = 51446 / 4 * 4 :=
  ⟨by decide, by decide,
    c1_decompose_reassembles 256 4 1 false none 51446 (by decide) (by decide)⟩

/-! ## C5: configuration validation at construction

The specification demands that a non-power-of-two set count or block size,
or a configuration with negative tag bits, be rejected with an
InvalidConfiguration error at construction.  The constructor performs no
validation at all (and no InvalidConfiguration error exists anywhere in
the code base): it stores floor-truncated bit widths for non-power-of-two
parameters and, for a configuration with negative tag bits, the failure
surfaces only later, as a negative-shift error inside address
decomposition. -/

/-- C5.  Constructing a cache with a non-power-of-two set count (3) and
block size (6) succeeds silently, storing the truncated bit widths, and
decomposition then also succeeds silently; constructing a cache whose tag
width is negative (8192 sets, 4-word blocks needing 13 + 2 + 2 = 17 bits)
also succeeds, and the error surfaces only on a later decomposition
call.  This contradicts rejection at construction time. -/
theorem c5_no_construction_rejection :
    (CacheSimulator.init 3 6 1 false none).blockIndexBits = 1 ∧
    (CacheSimulator.init 3 6 1 false none).blockOffsetBits = 2 ∧
    (CacheSimulator.init 3 6 1 false none).tagBits = 11 ∧
    (∃ t si bo byo,
      (CacheSimulator.init 3 6 1 false none).calculate_address_components 100
        = .ok (t, si, bo, byo)) ∧
    (CacheSimulator.init 8192 4 1 false none).tagBits = -1 ∧
    (CacheSimulator.init 8192 4 1 false none).calculate_address_components 100
      = .error "negative shift count" := by
  refine ⟨rfl, rfl, by decide, ⟨3, 0, 1, 0, rfl⟩, by decide, rfl⟩

/-! ## C8: memory range checking after alignment -/

/-- C8.  Memory read and write first align the address down to the nearest
multiple of 4 (Python floor division), then fail exactly when the aligned
address lies outside [0, size_bytes); an in-range read returns the stored
value, which is 0 for any address never written since the initial state,
and a write changes exactly the aligned word. -/
theorem c8_memory_alignment_and_range (m : MemorySimulator) (a : Int) (v sizeKb : Nat) :
    (((a.fdiv 4 * 4 < 0 ∨ (m.sizeBytes : Int) ≤ a.fdiv 4 * 4) →
        m.read a = .error "Address out of range" ∧
        m.write a v = .error "Address out of range") ∧
     ((0 ≤ a.fdiv 4 * 4 ∧ a.fdiv 4 * 4 < (m.sizeBytes : Int)) →
        m.read a = .ok (m.mem (a.fdiv 4 * 4).toNat) ∧
        ∃ m', m.write a v = .ok m' ∧
          m'.mem (a.fdiv 4 * 4).toNat = v ∧
          ∀ b : Nat, b ≠ (a.fdiv 4 * 4).toNat → m'.mem b = m.mem b)) ∧
    ((0 ≤ a.fdiv 4 * 4 ∧ a.fdiv 4 * 4 < ((sizeKb * 1024 : Nat) : Int)) →
        (MemorySimulator.init sizeKb).read a = .ok 0) := by
  constructor
  · constructor
    · intro h
      constructor
      · rw [MemorySimulator.read, if_pos h]
      · rw [MemorySimulator.write, if_pos h]
    · intro h
      have hno : ¬ (a.fdiv 4 * 4 < 0 ∨ (m.sizeBytes : Int) ≤ a.fdiv 4 * 4) := by
        push_neg
        exact ⟨h.1, h.2⟩
      refine ⟨by rw [MemorySimulator.read, if_neg hno], ?_⟩
      refine ⟨_, by rw [MemorySimulator.write, if_neg hno], ?_, ?_⟩
      · simp
      · intro b hb
        simp [hb]
  · intro h
    have hno : ¬ (a.fdiv 4 * 4 < 0 ∨ ((MemorySimulator.init sizeKb).sizeBytes : Int) ≤ a.fdiv 4 * 4) := by
      push_neg
      exact ⟨h.1, h.2⟩
    rw [MemorySimulator.read, if_neg hno]
    rfl

/-- Witness for C8: address 65537 aligns to 65536 and is rejected by the
default 64 KB memory; address 10 aligns to 8 and reads 0 from the initial
memory; a negative address aligns to a negative word and is rejected. -/
theorem c8_witness :
    ((MemorySimulator.init 64).read 65537 = .error "Address out of range" ∧
      (MemorySimulator.init 64).write 65537 7 = .error "Address out of range") ∧
    (MemorySimulator.init 64).read (-1) = .error "Address out of range" ∧
    (MemorySimulator.init 64).read 10 = .ok 0 := by
  refine ⟨?_, ?_, ?_⟩
  · exact (c8_memory_alignment_and_range (MemorySimulator.init 64) 65537 7 64).1.1 (by decide)
  · exact ((c8_memory_alignment_and_range (MemorySimulator.init 64) (-1) 7 64).1.1 (by decide)).1
  · exact (c8_memory_alignment_and_range (MemorySimulator.init 64) 10 7 64).2 (by decide)

/-! ## Helper lemmas about the exercise manager -/

/-- Performing the current operation only replaces the cache state. -/
lemma runCurrentOp_state (m : ExerciseManager) (op : ExerciseOperation) (hit : Bool)
    (m1 : ExerciseManager) (h : m.runCurrentOp op = .ok (hit, m1)) :
    m1.operations = m.operations ∧ m1.currentOperationIndex = m.currentOperationIndex ∧
    m1.attemptsPerQuestion = m.attemptsPerQuestion ∧ m1.maxAttempts = m.maxAttempts := by
  unfold ExerciseManager.runCurrentOp at h
  split at h
  · cases hr : m.cache.read op.address with
    | error e =>
        rw [hr] at h
        simp only [Except.instMonad, Except.bind] at h
        exact Except.noConfusion h
    | ok trip =>
        obtain ⟨hb, hv, c'⟩ := trip
        rw [hr] at h
        simp only [Except.instMonad, Except.bind, Except.ok.injEq, Prod.mk.injEq] at h
        obtain ⟨-, h2⟩ := h
        subst h2
        exact ⟨rfl, rfl, rfl, rfl⟩
  · cases hr : m.cache.write op.address op.value with
    | error e =>
        rw [hr] at h
        simp only [Except.instMonad, Except.bind] at h
        exact Except.noConfusion h
    | ok pair =>
        obtain ⟨hb, c'⟩ := pair
        rw [hr] at h
        simp only [Except.instMonad, Except.bind, Except.ok.injEq, Prod.mk.injEq] at h
        obtain ⟨-, h2⟩ := h
        subst h2
        exact ⟨rfl, rfl, rfl, rfl⟩

/-- State change of a hit/miss grading call: the sequence, cursor and
limit are untouched, and the attempt map is either untouched, reset to 0
at the cursor, or bumped by one at the cursor. -/
lemma validate_hit_miss_spec (m : ExerciseManager) (sa : Bool) (ah : Option Bool)
    (r : Bool × Bool × String) (m' : ExerciseManager)
    (h : m.validate_hit_miss sa ah = .ok (r, m')) :
    m'.operations = m.operations ∧ m'.currentOperationIndex = m.currentOperationIndex ∧
    m'.maxAttempts = m.maxAttempts ∧
    (m'.attemptsPerQuestion = m.attemptsPerQuestion ∨
     m'.attemptsPerQuestion = setAttempt m.attemptsPerQuestion m.currentOperationIndex 0 ∨
     m'.attemptsPerQuestion = setAttempt m.attemptsPerQuestion m.currentOperationIndex
        (m.attemptsPerQuestion m.currentOperationIndex + 1)) := by
  unfold ExerciseManager.validate_hit_miss at h
  cases hop : m.get_current_operation with
  | none =>
      rw [hop] at h
      simp only [Except.ok.injEq, Prod.mk.injEq] at h
      obtain ⟨-, h2⟩ := h
      subst h2
      exact ⟨rfl, rfl, rfl, .inl rfl⟩
  | some op =>
      rw [hop] at h
      cases ah with
      | some h0 =>
          simp only [Except.instMonad, Except.bind, Except.pure, pure] at h
          split at h
          · simp only [Except.ok.injEq, Prod.mk.injEq] at h
            obtain ⟨-, h2⟩ := h
            subst h2
            exact ⟨rfl, rfl, rfl, .inr (.inl rfl)⟩
          · split at h <;>
            · simp only [Except.ok.injEq, Prod.mk.injEq] at h
              obtain ⟨-, h2⟩ := h
              subst h2
              exact ⟨rfl, rfl, rfl, .inr (.inr rfl)⟩
      | none =>
          simp only [Except.instMonad, Except.bind] at h
          split at h
          · exact Except.noConfusion h
          · rename_i v heq
            obtain ⟨actual, m1⟩ := v
            obtain ⟨e1, e2, e3, e4⟩ := runCurrentOp_state m op actual m1 heq
            split at h
            · simp only [Except.ok.injEq, Prod.mk.injEq] at h
              obtain ⟨-, h2⟩ := h
              subst h2
              refine ⟨e1, e2, e4, .inr (.inl ?_)⟩
              show setAttempt m1.attemptsPerQuestion m1.currentOperationIndex 0 = _
              rw [e2, e3]
            · split at h <;>
              · simp only [Except.ok.injEq, Prod.mk.injEq] at h
                obtain ⟨-, h2⟩ := h
                subst h2
                refine ⟨e1, e2, e4, .inr (.inr ?_)⟩
                show setAttempt m1.attemptsPerQuestion m1.currentOperationIndex
                    (m1.get_attempts_for_current + 1) = _
                rw [ExerciseManager.get_attempts_for_current, e2, e3]

/-- State change of a decomposition grading call: the cache (and with it
the memory), sequence, cursor and limit are untouched, and the attempt map
is either untouched, reset to 0 at the cursor, or bumped by one at the
cursor. -/
lemma validate_address_decomposition_spec (m : ExerciseManager)
    (t bi byo bo : Nat) (r : Bool × Bool × String) (m' : ExerciseManager)
    (h : m.validate_address_decomposition t bi byo bo = .ok (r, m')) :
    m'.cache = m.cache ∧
    m'.operations = m.operations ∧ m'.currentOperationIndex = m.currentOperationIndex ∧
    m'.maxAttempts = m.maxAttempts ∧
    (m'.attemptsPerQuestion = m.attemptsPerQuestion ∨
     m'.attemptsPerQuestion = setAttempt m.attemptsPerQuestion m.currentOperationIndex 0 ∨
     m'.attemptsPerQuestion = setAttempt m.attemptsPerQuestion m.currentOperationIndex
        (m.attemptsPerQuestion m.currentOperationIndex + 1)) := by
  unfold ExerciseManager.validate_address_decomposition at h
  cases hop : m.get_current_operation with
  | none =>
      rw [hop] at h
      simp only [Except.ok.injEq, Prod.mk.injEq] at h
      obtain ⟨-, h2⟩ := h
      subst h2
      exact ⟨rfl, rfl, rfl, rfl, .inl rfl⟩
  | some op =>
      rw [hop] at h
      simp only [Except.instMonad, Except.bind] at h
      split at h
      · exact Except.noConfusion h
      · rename_i v heq
        obtain ⟨ct, cbi, cbo, cbyo⟩ := v
        split at h
        · simp only [Except.ok.injEq, Prod.mk.injEq] at h
          obtain ⟨-, h2⟩ := h
          subst h2
          exact ⟨rfl, rfl, rfl, rfl, .inr (.inl rfl)⟩
        · split at h <;>
          · simp only [Except.ok.injEq, Prod.mk.injEq] at h
            obtain ⟨-, h2⟩ := h
            subst h2
            exact ⟨rfl, rfl, rfl, rfl, .inr (.inr rfl)⟩

/-- Navigation, loading and resetting keep the attempt limit, and leave
the attempt map either untouched or cleared to zero. -/
lemma nav_fields (m : ExerciseManager) (i : Nat) (ops : List ExerciseOperation) (rc : Bool) :
    ((m.go_to_operation i).attemptsPerQuestion = m.attemptsPerQuestion ∧
      (m.go_to_operation i).maxAttempts = m.maxAttempts) ∧
    (m.next_operation.attemptsPerQuestion = m.attemptsPerQuestion ∧
      m.next_operation.maxAttempts = m.maxAttempts) ∧
    (m.previous_operation.attemptsPerQuestion = m.attemptsPerQuestion ∧
      m.previous_operation.maxAttempts = m.maxAttempts) ∧
    ((m.load_exercise ops rc).attemptsPerQuestion = (fun _ => 0) ∧
      (m.load_exercise ops rc).maxAttempts = m.maxAttempts) ∧
    (m.reset_to_beginning.attemptsPerQuestion = (fun _ => 0) ∧
      m.reset_to_beginning.maxAttempts = m.maxAttempts) := by
  refine ⟨?_, ?_, ?_, ?_, ⟨rfl, rfl⟩⟩
  · unfold ExerciseManager.go_to_operation
    split <;> exact ⟨rfl, rfl⟩
  · unfold ExerciseManager.next_operation
    split <;> exact ⟨rfl, rfl⟩
  · unfold ExerciseManager.previous_operation
    split <;> exact ⟨rfl, rfl⟩
  · unfold ExerciseManager.load_exercise
    split <;> exact ⟨rfl, rfl⟩

/-! ## C6: attempt counts, corrected -/

/-- C6 counterexample.  Three wrong hit/miss grading calls on the same
question drive its attempt count to 3, strictly above max_attempts = 2:
the manager neither clamps the count nor freezes scoring once
max_attempts is reached (the third call still mutates the count). -/
theorem c6_counterexample :
    ¬ ((c6After (c6After (c6After c6Mgr0))).attemptsPerQuestion 0 ≤
        (c6After (c6After (c6After c6Mgr0))).maxAttempts) ∧
    (c6After (c6After (c6After c6Mgr0))).attemptsPerQuestion 0 = 3 := by
  decide

/-- C6 as amended.  For any trace of grading, navigation, loading and
resetting calls in which no question is graded again once its attempt
count has reached max_attempts (the auto-advance usage the specification
describes), every attempt count stays in [0, max_attempts]; the limit
itself never changes.  (Unrestricted further grading can exceed the bound,
see the counterexample.) -/
theorem c6_attempts_bounded (m0 m : ExerciseManager)
    (h0 : ∀ i, m0.attemptsPerQuestion i ≤ m0.maxAttempts)
    (hreach : MgrReach m0 m) :
    m.maxAttempts = m0.maxAttempts ∧
    ∀ i, m.attemptsPerQuestion i ≤ m0.maxAttempts := by
  induction hreach with
  | refl => exact ⟨rfl, h0⟩
  | @gradeHitMiss mm mm' r sa ah hr hguard hv ih =>
      obtain ⟨hmax, hb⟩ := ih
      obtain ⟨-, -, hm, hatt⟩ := validate_hit_miss_spec mm sa ah r mm' hv
      refine ⟨hm.trans hmax, ?_⟩
      intro i
      have hg : mm.attemptsPerQuestion mm.currentOperationIndex < m0.maxAttempts := by
        rw [← hmax]
        exact hguard
      rcases hatt with h1 | h1 | h1 <;> rw [h1]
      · exact hb i
      · unfold setAttempt
        by_cases hi : i = mm.currentOperationIndex
        · rw [if_pos hi]; omega
        · rw [if_neg hi]; exact hb i
      · unfold setAttempt
        by_cases hi : i = mm.currentOperationIndex
        · rw [if_pos hi]; omega
        · rw [if_neg hi]; exact hb i
  | @gradeDecomposition mm mm' r t bi byo bo hr hguard hv ih =>
      obtain ⟨hmax, hb⟩ := ih
      obtain ⟨-, -, -, hm, hatt⟩ := validate_address_decomposition_spec mm t bi byo bo r mm' hv
      refine ⟨hm.trans hmax, ?_⟩
      intro i
      have hg : mm.attemptsPerQuestion mm.currentOperationIndex < m0.maxAttempts := by
        rw [← hmax]
        exact hguard
      rcases hatt with h1 | h1 | h1 <;> rw [h1]
      · exact hb i
      · unfold setAttempt
        by_cases hi : i = mm.currentOperationIndex
        · rw [if_pos hi]; omega
        · rw [if_neg hi]; exact hb i
      · unfold setAttempt
        by_cases hi : i = mm.currentOperationIndex
        · rw [if_pos hi]; omega
        · rw [if_neg hi]; exact hb i
  | @goTo mm i hr ih =>
      obtain ⟨hmax, hb⟩ := ih
      obtain ⟨⟨ha, hm⟩, -, -, -, -⟩ := nav_fields mm i [] false
      exact ⟨hm.trans hmax, fun j => by rw [ha]; exact hb j⟩
  | @next mm hr ih =>
      obtain ⟨hmax, hb⟩ := ih
      obtain ⟨-, ⟨ha, hm⟩, -, -, -⟩ := nav_fields mm 0 [] false
      exact ⟨hm.trans hmax, fun j => by rw [ha]; exact hb j⟩
  | @prev mm hr ih =>
      obtain ⟨hmax, hb⟩ := ih
      obtain ⟨-, -, ⟨ha, hm⟩, -, -⟩ := nav_fields mm 0 [] false
      exact ⟨hm.trans hmax, fun j => by rw [ha]; exact hb j⟩
  | @load mm ops rc hr ih =>
      obtain ⟨hmax, hb⟩ := ih
      obtain ⟨-, -, -, ⟨ha, hm⟩, -⟩ := nav_fields mm 0 ops rc
      refine ⟨hm.trans hmax, fun j => ?_⟩
      rw [ha]
      exact Nat.zero_le _
  | @restart mm hr ih =>
      obtain ⟨hmax, hb⟩ := ih
      obtain ⟨-, -, -, -, ⟨ha, hm⟩⟩ := nav_fields mm 0 [] false
      refine ⟨hm.trans hmax, fun j => ?_⟩
      rw [ha]
      exact Nat.zero_le _

/-- Witness for the amended C6: one guarded wrong grading call on a fresh
session keeps the attempt count within the limit. -/
theorem c6_witness : (c6After c6Mgr0).attemptsPerQuestion 0 ≤ c6Mgr0.maxAttempts :=
  (c6_attempts_bounded c6Mgr0 (c6After c6Mgr0) (fun _ => Nat.zero_le _)
    (@MgrReach.gradeHitMiss c6Mgr0 c6Mgr0 (c6After c6Mgr0)
      (false, false, "Incorrect, try again.") false (some true)
      MgrReach.refl (by decide) rfl)).2 0

/-! ## C7: ground truth is re-executed, not cached -/

/-- C7.  The session does not execute each operation's ground truth once:
two consecutive get_correct_hit_miss calls for the same (first) operation
re-run the cache access both times, so the first returns Miss and fills
the cache while the second returns Hit and bumps the hit counter; the
cache state and counters change on each call instead of being left
untouched with a cached result. -/
theorem c7_ground_truth_reexecuted :
    (c7Step c7Mgr).1 = false ∧
    ((c7Step c7Mgr).2).cache.misses = 1 ∧
    ((c7Step c7Mgr).2).cache.hits = 0 ∧
    (c7Step ((c7Step c7Mgr).2)).1 = true ∧
    ((c7Step ((c7Step c7Mgr).2)).2).cache.hits = 1 := by
  decide

/-! ## C10: decomposition grading never mutates cache or memory -/

/-- C10.  A decomposition grading call that returns never changes the
cache state: all cache lines, the hit and miss counters and the attached
memory (all carried by the cache field) are identical before and after
the call, for every input and every session state. -/
theorem c10_decomposition_grading_frame (m : ExerciseManager)
    (t bi byo bo : Nat) (r : Bool × Bool × String) (m' : ExerciseManager)
    (h : m.validate_address_decomposition t bi byo bo = .ok (r, m')) :
    m'.cache = m.cache :=
  (validate_address_decomposition_spec m t bi byo bo r m' h).1

/-- Witness for C10: a concrete correct decomposition answer on a fresh
session leaves the cache untouched. -/
theorem c10_witness : c10Res.cache = c10Mgr.cache :=
  c10_decomposition_grading_frame c10Mgr 0 0 0 0 (true, true, "Correct!") c10Res rfl

/-! ## Description lemmas for the cache read and write paths -/

/-- Complete case description of a successful cache read: either a hit,
which bumps the hit counter and refreshes the LRU stamp of the found way,
or a miss, which bumps the miss counter, loads the block, possibly writes
the victim back, and installs the new block clean at the victim way. -/
lemma read_spec (c : CacheSimulator) (a : Nat) (hb : Bool) (v : Nat) (c' : CacheSimulator)
    (h : c.read a = .ok (hb, v, c')) :
    ∃ t bi bo byo ways, c.calculate_address_components a = .ok (t, bi, bo, byo) ∧
      ways = c.sets.getD bi [] ∧
      ((∃ i, CacheSimulator.findEntryInSet ways t = some i ∧ hb = true ∧
          v = ((ways.getD i default).data.getD bo 0) ∧
          c' = { c with hits := c.hits + 1, sets := c.sets.set bi (c.updateLRU ways i) }) ∨
       (CacheSimulator.findEntryInSet ways t = none ∧ hb = false ∧
        ∃ blockData victim' mem' vIdx victim,
          vIdx = c.selectVictimEntry ways ∧
          victim = ways.getD vIdx default ∧
          c.loadBlockFromMemory (c.getBlockStartAddress a) = .ok blockData ∧
          ((victim.valid = true ∧
             c.writeBackIfNeeded victim victim.blockStartAddress = .ok (victim', mem')) ∨
           (victim.valid = false ∧ victim' = victim ∧ mem' = c.memory)) ∧
          v = blockData.getD bo 0 ∧
          c' = { c with
                  misses := c.misses + 1
                  memory := mem'
                  sets := c.sets.set bi (c.updateLRU (ways.set vIdx
                    { victim' with
                        valid := true
                        tag := t
                        data := blockData
                        dirty := false
                        blockStartAddress := c.getBlockStartAddress a }) vIdx) })) := by
  unfold CacheSimulator.read at h
  simp only [Except.instMonad, Except.bind] at h
  split at h
  · exact Except.noConfusion h
  · rename_i quad heq
    obtain ⟨t, bi, bo, byo⟩ := quad
    refine ⟨t, bi, bo, byo, c.sets.getD bi [], heq, rfl, ?_⟩
    split at h
    · rename_i i heqf
      left
      simp only [Except.ok.injEq, Prod.mk.injEq] at h
      obtain ⟨h1, h2, h3⟩ := h
      exact ⟨i, heqf, h1.symm, h2.symm, h3.symm⟩
    · rename_i heqf
      right
      refine ⟨heqf, ?_⟩
      split at h
      · exact Except.noConfusion h
      · rename_i blockData heqL
        split at h
        · rename_i hval
          split at h
          · exact Except.noConfusion h
          · rename_i pair heqW
            obtain ⟨victim', mem'⟩ := pair
            simp only [Except.ok.injEq, Prod.mk.injEq] at h
            obtain ⟨h1, h2, h3⟩ := h
            exact ⟨h1.symm, blockData, victim', mem', _, _, rfl, rfl, heqL,
              .inl ⟨hval, heqW⟩, h2.symm, h3.symm⟩
        · rename_i hval
          simp only [Except.ok.injEq, Prod.mk.injEq] at h
          obtain ⟨h1, h2, h3⟩ := h
          exact ⟨h1.symm, blockData, _, _, _, _, rfl, rfl, heqL,
            .inr ⟨Bool.not_eq_true _ ▸ hval, rfl, rfl⟩, h2.symm, h3.symm⟩

/-- Complete case description of a successful cache write: a hit updates
the word in place and either marks the line dirty (write-back) or writes
the word through to memory; a write-through miss only writes the word to
memory, while a write-back miss loads the block, applies the write,
possibly writes the victim back, and installs the new block dirty. -/
lemma write_spec (c : CacheSimulator) (a wval : Nat) (hb : Bool) (c' : CacheSimulator)
    (h : c.write a wval = .ok (hb, c')) :
    ∃ t bi bo byo ways, c.calculate_address_components a = .ok (t, bi, bo, byo) ∧
      ways = c.sets.getD bi [] ∧
      ((∃ i e', CacheSimulator.findEntryInSet ways t = some i ∧ hb = true ∧
          e' = { ways.getD i default with data := (ways.getD i default).data.set bo wval } ∧
          ((c.writeBack = true ∧
             c' = { c with
                     hits := c.hits + 1
                     sets := c.sets.set bi (c.updateLRU (ways.set i { e' with dirty := true }) i) }) ∨
           (c.writeBack = false ∧ ∃ mem',
              ((∃ mm mm2, c.memory = some mm ∧ mm.write (a : Int) wval = .ok mm2 ∧
                  mem' = some mm2) ∨
               (c.memory = none ∧ mem' = none)) ∧
              c' = { c with
                      hits := c.hits + 1
                      memory := mem'
                      sets := c.sets.set bi (c.updateLRU (ways.set i e') i) }))) ∨
       (CacheSimulator.findEntryInSet ways t = none ∧ hb = false ∧
        ((c.writeBack = false ∧ ∃ mem',
            ((∃ mm mm2, c.memory = some mm ∧ mm.write (a : Int) wval = .ok mm2 ∧
                mem' = some mm2) ∨
             (c.memory = none ∧ mem' = none)) ∧
            c' = { c with misses := c.misses + 1, memory := mem' }) ∨
         (c.writeBack = true ∧ ∃ blockData victim' mem' vIdx victim,
            vIdx = c.selectVictimEntry ways ∧
            victim = ways.getD vIdx default ∧
            c.loadBlockFromMemory (c.getBlockStartAddress a) = .ok blockData ∧
            ((victim.valid = true ∧
               c.writeBackIfNeeded victim victim.blockStartAddress = .ok (victim', mem')) ∨
             (victim.valid = false ∧ victim' = victim ∧ mem' = c.memory)) ∧
            c' = { c with
                    misses := c.misses + 1
                    memory := mem'
                    sets := c.sets.set bi (c.updateLRU (ways.set vIdx
                      { victim' with
                          valid := true
                          tag := t
                          data := blockData.set bo wval
                          dirty := true
                          blockStartAddress := c.getBlockStartAddress a }) vIdx) })))) := by
  unfold CacheSimulator.write at h
  simp only [Except.instMonad, Except.bind, Except.pure, pure] at h
  split at h
  · exact Except.noConfusion h
  · rename_i quad heq
    obtain ⟨t, bi, bo, byo⟩ := quad
    refine ⟨t, bi, bo, byo, c.sets.getD bi [], heq, rfl, ?_⟩
    split at h
    · -- hit
      rename_i i heqf
      left
      split at h
      · -- write-back hit
        rename_i hwb
        simp only [Except.ok.injEq, Prod.mk.injEq] at h
        obtain ⟨h1, h2⟩ := h
        exact ⟨i, _, heqf, h1.symm, rfl, .inl ⟨hwb, h2.symm⟩⟩
      · -- write-through hit
        rename_i hwb
        split at h
        · -- memory attached
          rename_i mm heqM
          split at h
          · exact Except.noConfusion h
          · rename_i mm2 heqW
            simp only [Except.ok.injEq, Prod.mk.injEq] at h
            obtain ⟨h1, h2⟩ := h
            exact ⟨i, _, heqf, h1.symm, rfl,
              .inr ⟨Bool.not_eq_true _ ▸ hwb, some mm2,
                .inl ⟨mm, mm2, heqM, heqW, rfl⟩, h2.symm⟩⟩
        · -- no memory
          rename_i heqM
          simp only [Except.ok.injEq, Prod.mk.injEq] at h
          obtain ⟨h1, h2⟩ := h
          exact ⟨i, _, heqf, h1.symm, rfl,
            .inr ⟨Bool.not_eq_true _ ▸ hwb, none, .inr ⟨heqM, rfl⟩, h2.symm⟩⟩
    · -- miss
      rename_i heqf
      right
      refine ⟨heqf, ?_⟩
      split at h
      · -- write-through miss
        rename_i hwb
        have hwb' : c.writeBack = false := by
          revert hwb
          cases c.writeBack <;> simp
        split at h
        · -- memory attached
          rename_i mm heqM
          split at h
          · exact Except.noConfusion h
          · rename_i mm2 heqW
            simp only [Except.ok.injEq, Prod.mk.injEq] at h
            obtain ⟨h1, h2⟩ := h
            exact ⟨h1.symm, .inl ⟨hwb', some mm2, .inl ⟨mm, mm2, heqM, heqW, rfl⟩, h2.symm⟩⟩
        · -- no memory
          rename_i heqM
          simp only [Except.ok.injEq, Prod.mk.injEq] at h
          obtain ⟨h1, h2⟩ := h
          exact ⟨h1.symm, .inl ⟨hwb', none, .inr ⟨heqM, rfl⟩, h2.symm⟩⟩
      · -- write-back miss (write-allocate)
        rename_i hwb
        have hwb' : c.writeBack = true := by
          revert hwb
          cases c.writeBack <;> simp
        split at h
        · exact Except.noConfusion h
        · rename_i blockData heqL
          split at h
          · -- valid victim, write back attempted
            rename_i hval
            split at h
            · exact Except.noConfusion h
            · rename_i pair heqW
              obtain ⟨victim', mem'⟩ := pair
              simp only [Except.ok.injEq, Prod.mk.injEq] at h
              obtain ⟨h1, h2⟩ := h
              exact ⟨h1.symm, .inr ⟨hwb', blockData, victim', mem', _, _, rfl, rfl, heqL,
                .inl ⟨hval, heqW⟩, h2.symm⟩⟩
          · -- invalid victim
            rename_i hval
            simp only [Except.ok.injEq, Prod.mk.injEq] at h
            obtain ⟨h1, h2⟩ := h
            exact ⟨h1.symm, .inr ⟨hwb', blockData, _, _, _, _, rfl, rfl, heqL,
              .inr ⟨Bool.not_eq_true _ ▸ hval, rfl, rfl⟩, h2.symm⟩⟩

/-! ## List indexing helpers -/

lemma getD_set_self {α : Type} (l : List α) (i : Nat) (x d : α) (h : i < l.length) :
    (l.set i x).getD i d = x := by
  rw [List.getD_eq_getElem?_getD, List.getElem?_set_self h]
  rfl

lemma getD_set_ne {α : Type} (l : List α) (i j : Nat) (x d : α) (h : i ≠ j) :
    (l.set i x).getD j d = l.getD j d := by
  rw [List.getD_eq_getElem?_getD, List.getElem?_set_ne h, ← List.getD_eq_getElem?_getD]

/-- Reading any position of a list after a single update: either the
position is the updated one (in range), or the value is unchanged. -/
lemma getD_set_cases {α : Type} (l : List α) (i s : Nat) (x d : α) :
    ((l.set i x).getD s d = x ∧ s = i ∧ i < l.length) ∨
    (l.set i x).getD s d = l.getD s d := by
  by_cases his : i = s
  · subst his
    by_cases hlt : i < l.length
    · exact .inl ⟨getD_set_self l i x d hlt, rfl, hlt⟩
    · right
      rw [List.set_eq_of_length_le (by omega)]
  · exact .inr (getD_set_ne l i s x d his)

lemma getD_mem {α : Type} (l : List α) (j : Nat) (d : α) (h : j < l.length) :
    l.getD j d ∈ l := by
  rw [List.getD_eq_getElem?_getD, List.getElem?_eq_getElem h]
  exact List.getElem_mem h

/-! ## Pointwise description of the LRU refresh -/

lemma updateLRU_length (c : CacheSimulator) (ways : List CacheEntry) (idx : Nat) :
    (c.updateLRU ways idx).length = ways.length := by
  unfold CacheSimulator.updateLRU
  split
  · exact List.length_set ways idx _
  · rfl

/-- The LRU refresh changes at most the use counter of the refreshed way:
validity, tag, data, dirty flag and block start address of every way are
untouched. -/
lemma updateLRU_getD_fields (c : CacheSimulator) (ways : List CacheEntry) (idx j : Nat) :
    ((c.updateLRU ways idx).getD j default).valid = (ways.getD j default).valid ∧
    ((c.updateLRU ways idx).getD j default).tag = (ways.getD j default).tag ∧
    ((c.updateLRU ways idx).getD j default).data = (ways.getD j default).data ∧
    ((c.updateLRU ways idx).getD j default).dirty = (ways.getD j default).dirty ∧
    ((c.updateLRU ways idx).getD j default).blockStartAddress
      = (ways.getD j default).blockStartAddress := by
  unfold CacheSimulator.updateLRU
  split
  · rcases getD_set_cases ways idx j
      { ways.getD idx default with
          useBit := ((ways.filter fun e => e.valid).foldl (fun mx e => max mx e.useBit) 0) + 1 }
      default with ⟨he, hji, hlt⟩ | he <;> rw [he]
    · subst hji
      exact ⟨rfl, rfl, rfl, rfl, rfl⟩
    · exact ⟨rfl, rfl, rfl, rfl, rfl⟩
  · exact ⟨rfl, rfl, rfl, rfl, rfl⟩

/-! ## C9: no duplicate tags in a set -/

lemma noDupValidTags_pointwise (w1 w2 : List CacheEntry)
    (hlen : w2.length = w1.length)
    (hvalid : ∀ j, (w2.getD j default).valid = (w1.getD j default).valid)
    (htag : ∀ j, (w2.getD j default).tag = (w1.getD j default).tag)
    (h : NoDupValidTags w1) : NoDupValidTags w2 := by
  intro i j hi hj hne hvi hvj
  rw [htag i, htag j]
  rw [hvalid i] at hvi
  rw [hvalid j] at hvj
  exact h i j (hlen ▸ hi) (hlen ▸ hj) hne hvi hvj

/-- A scan that found no valid entry with the given tag means no valid
entry of the set carries it. -/
lemma findEntryInSet_none (ways : List CacheEntry) (t : Nat)
    (h : CacheSimulator.findEntryInSet ways t = none) :
    ∀ x ∈ ways, ¬(x.valid = true ∧ x.tag = t) := by
  rw [CacheSimulator.findEntryInSet, List.findIdx?_eq_none_iff] at h
  rintro x hx ⟨hv, ht⟩
  have hfalse := h x hx
  rw [hv, ht] at hfalse
  simp at hfalse

/-- Installing a tag that no valid entry of the set carries preserves
tag uniqueness. -/
lemma noDupValidTags_install (ways : List CacheEntry) (vIdx : Nat) (e : CacheEntry)
    (hnew : ∀ x ∈ ways, ¬(x.valid = true ∧ x.tag = e.tag))
    (hinv : NoDupValidTags ways) : NoDupValidTags (ways.set vIdx e) := by
  intro i j hi hj hne hvi hvj
  rw [List.length_set] at hi hj
  rcases getD_set_cases ways vIdx i e default with ⟨hei, hiv, hlt⟩ | hei <;>
    rcases getD_set_cases ways vIdx j e default with ⟨hej, hjv, hlt2⟩ | hej
  · omega
  · rw [hei, hej]
    rw [hej] at hvj
    intro hcontra
    exact hnew _ (getD_mem ways j default hj) ⟨hvj, hcontra.symm⟩
  · rw [hei, hej]
    rw [hei] at hvi
    intro hcontra
    exact hnew _ (getD_mem ways i default hi) ⟨hvi, hcontra⟩
  · rw [hei, hej]
    rw [hei] at hvi
    rw [hej] at hvj
    exact hinv i j hi hj hne hvi hvj

/-- A successful read preserves tag uniqueness in every set. -/
lemma read_preserves_noDup (c : CacheSimulator) (a : Nat) (hb : Bool) (v : Nat)
    (c' : CacheSimulator) (h : c.read a = .ok (hb, v, c'))
    (hinv : ∀ s, NoDupValidTags (c.sets.getD s [])) :
    ∀ s, NoDupValidTags (c'.sets.getD s []) := by
  obtain ⟨t, bi, bo, byo, ways, hcalc, hways, hcase⟩ := read_spec c a hb v c' h
  intro s
  rcases hcase with ⟨i, hfind, -, -, hc'⟩ |
    ⟨hfind, -, bd, victim', mem', vIdx, victim, hvIdx, hvict, -, -, -, hc'⟩
  · subst hc'
    show NoDupValidTags ((c.sets.set bi (c.updateLRU ways i)).getD s [])
    rcases getD_set_cases c.sets bi s (c.updateLRU ways i) [] with ⟨he, hsb, hlt⟩ | he <;>
      rw [he]
    · refine noDupValidTags_pointwise ways _ (updateLRU_length c ways i)
        (fun j => (updateLRU_getD_fields c ways i j).1)
        (fun j => (updateLRU_getD_fields c ways i j).2.1) ?_
      rw [hways]
      exact hinv bi
    · exact hinv s
  · subst hc'
    show NoDupValidTags ((c.sets.set bi _).getD s [])
    rcases getD_set_cases c.sets bi s _ [] with ⟨he, hsb, hlt⟩ | he <;> rw [he]
    · refine noDupValidTags_pointwise _ _ (updateLRU_length c _ vIdx)
        (fun j => (updateLRU_getD_fields c _ vIdx j).1)
        (fun j => (updateLRU_getD_fields c _ vIdx j).2.1) ?_
      refine noDupValidTags_install ways vIdx _ ?_ ?_
      · exact fun x hx => findEntryInSet_none ways t hfind x hx
      · rw [hways]
        exact hinv bi
    · exact hinv s

/-- A successful write preserves tag uniqueness in every set. -/
lemma write_preserves_noDup (c : CacheSimulator) (a wval : Nat) (hb : Bool)
    (c' : CacheSimulator) (h : c.write a wval = .ok (hb, c'))
    (hinv : ∀ s, NoDupValidTags (c.sets.getD s [])) :
    ∀ s, NoDupValidTags (c'.sets.getD s []) := by
  obtain ⟨t, bi, bo, byo, ways, hcalc, hways, hcase⟩ := write_spec c a wval hb c' h
  intro s
  rcases hcase with ⟨i, e', hfind, -, he', hpol⟩ | ⟨hfind, -, hpol⟩
  · -- hit: the updated entry keeps the validity and tag of the old one
    have hsame : ∀ (e2 : CacheEntry), e2.valid = (ways.getD i default).valid →
        e2.tag = (ways.getD i default).tag →
        NoDupValidTags ((c.sets.set bi (c.updateLRU (ways.set i e2) i)).getD s []) := by
      intro e2 hv2 ht2
      rcases getD_set_cases c.sets bi s (c.updateLRU (ways.set i e2) i) [] with
        ⟨he, hsb, hlt⟩ | he <;> rw [he]
      · refine noDupValidTags_pointwise ways _ ?_ ?_ ?_ ?_
        · rw [updateLRU_length, List.length_set]
        · intro j
          rw [(updateLRU_getD_fields c _ i j).1]
          rcases getD_set_cases ways i j e2 default with ⟨hej, hji, hlt2⟩ | hej
          · rw [hej, hji]
            exact hv2
          · rw [hej]
        · intro j
          rw [(updateLRU_getD_fields c _ i j).2.1]
          rcases getD_set_cases ways i j e2 default with ⟨hej, hji, hlt2⟩ | hej
          · rw [hej, hji]
            exact ht2
          · rw [hej]
        · rw [hways]
          exact hinv bi
      · exact hinv s
    rcases hpol with ⟨-, hc'⟩ | ⟨-, mem', -, hc'⟩ <;> subst hc'
    · exact hsame _ (by rw [he']) (by rw [he'])
    · exact hsame _ (by rw [he']) (by rw [he'])
  · rcases hpol with ⟨-, mem', -, hc'⟩ | ⟨-, bd, victim', mem', vIdx, victim, hvIdx, hvict, -, -, hc'⟩
    · -- write-through miss: the cache structure is untouched
      subst hc'
      exact hinv s
    · -- write-back miss: install a tag absent from the set
      subst hc'
      show NoDupValidTags ((c.sets.set bi _).getD s [])
      rcases getD_set_cases c.sets bi s _ [] with ⟨he, hsb, hlt⟩ | he <;> rw [he]
      · refine noDupValidTags_pointwise _ _ (updateLRU_length c _ vIdx)
          (fun j => (updateLRU_getD_fields c _ vIdx j).1)
          (fun j => (updateLRU_getD_fields c _ vIdx j).2.1) ?_
        refine noDupValidTags_install ways vIdx _ ?_ ?_
        · exact fun x hx => findEntryInSet_none ways t hfind x hx
        · rw [hways]
          exact hinv bi
      · exact hinv s

/-- Every set of a freshly constructed cache is entirely invalid. -/
lemma initialCache_all_invalid (slots blockWords assoc : Nat) :
    ∀ s, ∀ e ∈ (CacheSimulator.initialCache slots blockWords assoc).getD s [],
      e.valid = false := by
  intro s e he
  unfold CacheSimulator.initialCache at he
  split at he <;>
  · rw [List.getD_eq_getElem?_getD, List.getElem?_replicate] at he
    split at he
    · rw [Option.getD_some] at he
      first
        | rw [List.mem_singleton] at he
        | replace he := List.eq_of_mem_replicate he
      subst he
      rfl
    · simp at he

/-- C9.  In every cache state reachable from a fresh cache by any sequence
of successful reads and writes, no set holds two valid lines with the same
tag: the fill and replace logic never installs a duplicate tag. -/
theorem c9_no_duplicate_tags (slots blockWords assoc : Nat) (wb : Bool)
    (mem0 : Option MemorySimulator) (c : CacheSimulator)
    (hreach : Reach (CacheSimulator.init slots blockWords assoc wb mem0) c) :
    ∀ s, NoDupValidTags (c.sets.getD s []) := by
  induction hreach with
  | refl =>
      intro s i j hi hj hne hvi hvj
      have := initialCache_all_invalid slots blockWords assoc s _
        (getD_mem _ i default hi)
      rw [show (CacheSimulator.init slots blockWords assoc wb mem0).sets
            = CacheSimulator.initialCache slots blockWords assoc from rfl] at hvi
      rw [this] at hvi
      exact absurd hvi (by simp)
  | readStep hr hok ih => exact read_preserves_noDup _ _ _ _ _ hok ih
  | writeStep hr hok ih => exact write_preserves_noDup _ _ _ _ _ hok ih

/-- Witness for C9: set 0 of the freshly constructed 2-way cache trivially
satisfies the invariant via the reflexive reachability step. -/
theorem c9_witness : NoDupValidTags
    ((CacheSimulator.init 4 2 2 false none).sets.getD 0 []) :=
  c9_no_duplicate_tags 4 2 2 false none _ Reach.refl 0

/-! ## Memory write-block postcondition -/

lemma aligned_fdiv_mul (a : Int) (h : a % 4 = 0) : a.fdiv 4 * 4 = a := by
  rw [Int.fdiv_eq_ediv _ (by norm_num)]
  omega

/-- Backward description of a successful single-word memory write. -/
lemma memWrite_ok_spec (m : MemorySimulator) (a : Int) (v : Nat) (m' : MemorySimulator)
    (h : m.write a v = .ok m') :
    ¬(a.fdiv 4 * 4 < 0 ∨ (m.sizeBytes : Int) ≤ a.fdiv 4 * 4) ∧
    m' = { m with
            mem := fun b => if b = (a.fdiv 4 * 4).toNat then v else m.mem b
            modified := fun b => if b = (a.fdiv 4 * 4).toNat then true else m.modified b } := by
  unfold MemorySimulator.write at h
  dsimp only at h
  split at h
  · exact Except.noConfusion h
  · rename_i hrange
    simp only [Except.ok.injEq] at h
    exact ⟨hrange, h.symm⟩

/-- After a successful word-by-word block write at an aligned start, the
written words read back exactly, other aligned words are untouched, and
the size is unchanged. -/
lemma writeWords_spec (data : List Nat) : ∀ (m m' : MemorySimulator) (start : Int),
    0 ≤ start → start % 4 = 0 →
    MemorySimulator.writeWords m start data = .ok m' →
    (∀ j : Nat, j < data.length → m'.read (start + 4 * j) = .ok (data.getD j 0)) ∧
    (∀ b : Int, 0 ≤ b → b % 4 = 0 → (∀ j : Nat, j < data.length → b ≠ start + 4 * j) →
      m'.mem b.toNat = m.mem b.toNat) ∧
    m'.sizeBytes = m.sizeBytes := by
  induction data with
  | nil =>
      intro m m' start h0 h4 h
      unfold MemorySimulator.writeWords at h
      simp only [Except.ok.injEq] at h
      subst h
      exact ⟨fun j hj => absurd hj (by simp), fun b _ _ _ => rfl, rfl⟩
  | cons v vs ih =>
      intro m m' start h0 h4 h
      unfold MemorySimulator.writeWords at h
      simp only [Except.instMonad, Except.bind] at h
      split at h
      · exact Except.noConfusion h
      · rename_i m1 heqW
        obtain ⟨hrange, hm1⟩ := memWrite_ok_spec m start v m1 heqW
        rw [aligned_fdiv_mul start h4] at hrange hm1
        obtain ⟨ihread, ihframe, ihsize⟩ :=
          ih m1 m' (start + 4) (by omega) (by omega) h
        have hsize1 : m1.sizeBytes = m.sizeBytes := by rw [hm1]
        have hstartlt : start < (m.sizeBytes : Int) := by
          push_neg at hrange
          exact hrange.2
        refine ⟨?_, ?_, ihsize.trans hsize1⟩
        · intro j hj
          cases j with
          | zero =>
              have hframe := ihframe start h0 h4 (fun j hj => by omega)
              unfold MemorySimulator.read
              rw [aligned_fdiv_mul _ (by omega)]
              rw [if_neg (by rw [ihsize, hsize1]; push_neg; constructor <;> omega)]
              rw [show start + 4 * (0 : Nat) = start by omega] at *
              rw [hframe, hm1]
              simp
          | succ k =>
              have := ihread k (by simpa using hj)
              rw [show start + 4 + 4 * k = start + 4 * (k + 1 : Nat) by push_cast; ring] at this
              rw [this]
              rfl
        · intro b hb hb4 hbne
          have h1 := ihframe b hb hb4 (fun j hj => by
            have := hbne (j + 1) (by simpa using Nat.succ_lt_succ hj)
            push_cast at this ⊢
            omega)
          rw [h1, hm1]
          have hb0 := hbne 0 (by simp)
          simp only [Nat.cast_zero, mul_zero, add_zero] at hb0
          have : b.toNat ≠ start.toNat := by omega
          simp [this]

/-- Backward description of a successful dirty write-back: memory is
attached, and the block is flushed with write_block. -/
lemma writeBackIfNeeded_dirty_spec (c : CacheSimulator) (e : CacheEntry) (addr : Nat)
    (victim' : CacheEntry) (mem' : Option MemorySimulator) (mm : MemorySimulator)
    (hmem : c.memory = some mm) (hwb : c.writeBack = true) (hdirty : e.dirty = true)
    (h : c.writeBackIfNeeded e addr = .ok (victim', mem')) :
    ∃ mm2, mm.write_block (addr : Int) e.data = .ok mm2 ∧ mem' = some mm2 ∧
      victim' = { e with dirty := false } := by
  unfold CacheSimulator.writeBackIfNeeded at h
  rw [hmem] at h
  simp only [hwb, hdirty, Bool.and_self, if_true, Except.instMonad, Except.bind] at h
  split at h
  · exact Except.noConfusion h
  · rename_i mm2 heq2
    simp only [Except.ok.injEq, Prod.mk.injEq] at h
    exact ⟨mm2, heq2, h.2.symm, h.1.symm⟩

/-! ## C3: write-back policy -/

/-- C3.  Under write-back: a write hit never touches memory (the attached
memory after the call is the attached memory before it); and when a read
miss evicts a valid dirty victim, the victim's full block is written back
with write_block at its recorded origin address, so the memory words of
that block afterwards read back exactly the victim line's data. -/
theorem c3_write_back (c : CacheSimulator) (a wval v t bi bo byo : Nat)
    (cw c' : CacheSimulator) (victim : CacheEntry) (mm : MemorySimulator) :
    (c.writeBack = true → c.write a wval = .ok (true, cw) → cw.memory = c.memory) ∧
    (c.calculate_address_components a = .ok (t, bi, bo, byo) →
     CacheSimulator.findEntryInSet (c.sets.getD bi []) t = none →
     victim = (c.sets.getD bi []).getD (c.selectVictimEntry (c.sets.getD bi [])) default →
     victim.valid = true → victim.dirty = true →
     c.writeBack = true → c.memory = some mm →
     victim.blockStartAddress % 4 = 0 →
     c.read a = .ok (false, v, c') →
     ∃ mm2, mm.write_block (victim.blockStartAddress : Int) victim.data = .ok mm2 ∧
       c'.memory = some mm2 ∧
       ∀ j : Nat, j < victim.data.length →
         mm2.read ((victim.blockStartAddress : Int) + 4 * j) = .ok (victim.data.getD j 0)) := by
  constructor
  · -- write hit leaves memory unchanged
    intro hwb hw
    obtain ⟨t', bi', bo', byo', ways, hcalc, hways, hcase⟩ := write_spec c a wval true cw hw
    rcases hcase with ⟨i, e', hfind, -, he', hpol⟩ | ⟨-, hfalse, -⟩
    · rcases hpol with ⟨-, hcw⟩ | ⟨hwb', -⟩
      · subst hcw
        rfl
      · rw [hwb] at hwb'
        exact absurd hwb' (by simp)
    · exact absurd hfalse.symm (by simp)
  · -- dirty eviction flushes the block
    intro hcalc hfind hvic hvalid hdirty hwb hmem halign hr
    obtain ⟨t2, bi2, bo2, byo2, ways, hcalc2, hways, hcase⟩ := read_spec c a false v c' hr
    rw [hcalc] at hcalc2
    simp only [Except.ok.injEq, Prod.mk.injEq] at hcalc2
    obtain ⟨ht, hbi, hbo, hbyo⟩ := hcalc2
    subst ht hbi hbo hbyo
    rcases hcase with ⟨i, hfind2, -, -, -⟩ |
      ⟨-, -, bd, victim', mem', vIdx, victim2, hvIdx, hvict2, hload, hdisj, hv, hc'⟩
    · rw [hways] at hfind2
      rw [hfind] at hfind2
      exact absurd hfind2 (by simp)
    · have hvict_eq : victim2 = victim := by
        rw [hvict2, hvIdx, hways, hvic]
      subst hvict_eq
      rcases hdisj with ⟨-, hwbif⟩ | ⟨hinvalid, -, -⟩
      · obtain ⟨mm2, hblock, hmem', hvictim'⟩ :=
          writeBackIfNeeded_dirty_spec c victim2 victim2.blockStartAddress victim' mem' mm
            hmem hwb hdirty hwbif
        refine ⟨mm2, hblock, ?_, ?_⟩
        · rw [hc', hmem']
        · have halign' : ((victim2.blockStartAddress : Nat) : Int) % 4 = 0 := by
            omega
          have hstart : ((victim2.blockStartAddress : Nat) : Int).fdiv 4 * 4
              = (victim2.blockStartAddress : Int) := aligned_fdiv_mul _ halign'
          unfold MemorySimulator.write_block at hblock
          rw [hstart] at hblock
          exact (writeWords_spec victim2.data mm mm2 _ (by positivity) halign' hblock).1
      · rw [hvalid] at hinvalid
        exact absurd hinvalid (by simp)

/-- Witness for C3 on the concrete dirty cache: the write hit leaves the
memory object untouched, and the eviction by the read of address 16
flushes data word 7 to memory address 0. -/
theorem c3_witness :
    c3AfterWrite.memory = c3Cache.memory ∧
    (∃ mm2, (MemorySimulator.init 64).write_block (0 : Int) [7] = .ok mm2 ∧
      c3AfterRead.memory = some mm2 ∧
      ∀ j : Nat, j < ([7] : List Nat).length →
        mm2.read ((0 : Int) + 4 * j) = .ok (([7] : List Nat).getD j 0)) := by
  constructor
  · exact (c3_write_back c3Cache 0 9 0 0 0 0 0 c3AfterWrite c3AfterWrite default
      (MemorySimulator.init 64)).1 rfl rfl
  · exact (c3_write_back c3Cache 16 9 0 1 0 0 0 c3AfterWrite c3AfterRead
      { valid := true, tag := 0, data := [7], dirty := true, useBit := 0,
        blockStartAddress := 0 }
      (MemorySimulator.init 64)).2 rfl rfl rfl rfl rfl rfl rfl (by decide) rfl

/-! ## More LRU refresh lemmas -/

lemma updateLRU_getD_ne (c : CacheSimulator) (ways : List CacheEntry) (idx j : Nat)
    (h : j ≠ idx) : (c.updateLRU ways idx).getD j default = ways.getD j default := by
  unfold CacheSimulator.updateLRU
  split
  · exact getD_set_ne _ _ _ _ _ (fun he => h he.symm)
  · rfl

lemma updateLRU_getD_self (c : CacheSimulator) (ways : List CacheEntry) (idx : Nat)
    (h1 : 1 < c.associativity) (h2 : idx < ways.length) :
    (c.updateLRU ways idx).getD idx default
      = { ways.getD idx default with
            useBit := ((ways.filter fun e => e.valid).foldl (fun mx e => max mx e.useBit) 0) + 1 } := by
  unfold CacheSimulator.updateLRU
  rw [if_pos h1]
  exact getD_set_self _ _ _ _ h2

lemma updateLRU_of_assoc_le (c : CacheSimulator) (ways : List CacheEntry) (idx : Nat)
    (h : ¬ 1 < c.associativity) : c.updateLRU ways idx = ways := by
  unfold CacheSimulator.updateLRU
  rw [if_neg h]

lemma le_foldl_max (l : List CacheEntry) : ∀ a : Nat,
    a ≤ l.foldl (fun mx e => max mx e.useBit) a := by
  induction l with
  | nil => intro a; exact le_refl a
  | cons x xs ih =>
      intro a
      calc a ≤ max a x.useBit := le_max_left a x.useBit
        _ ≤ xs.foldl (fun mx e => max mx e.useBit) (max a x.useBit) := ih _

lemma foldl_max_le_mem (l : List CacheEntry) : ∀ (a : Nat) (x : CacheEntry), x ∈ l →
    x.useBit ≤ l.foldl (fun mx e => max mx e.useBit) a := by
  induction l with
  | nil => intro a x hx; exact absurd hx (List.not_mem_nil x)
  | cons y ys ih =>
      intro a x hx
      rcases List.mem_cons.mp hx with hxy | hxs

      · subst hxy
        calc x.useBit ≤ max a x.useBit := le_max_right a x.useBit
          _ ≤ ys.foldl (fun mx e => max mx e.useBit) (max a x.useBit) := le_foldl_max ys _
      · exact ih _ x hxs

/-! ## C4: write-miss policy -/

/-- C4.  On a write miss: under write-through the single word goes
directly to the attached memory and no cache line is filled or modified
(no write-allocate), only the miss counter advances; under write-back the
block is fetched from memory, the written word is applied at the block
offset, a valid victim is written back first when needed, and the new
block is installed valid and dirty with its recency stamped above every
other valid line of the set. -/
theorem c4_write_miss (c : CacheSimulator) (a wval t bi bo byo : Nat) (c' : CacheSimulator)
    (hcalc : c.calculate_address_components a = .ok (t, bi, bo, byo))
    (hfind : CacheSimulator.findEntryInSet (c.sets.getD bi []) t = none) :
    (c.writeBack = false → c.write a wval = .ok (false, c') →
      c'.sets = c.sets ∧ c'.hits = c.hits ∧ c'.misses = c.misses + 1 ∧
      ((∃ mm mm2, c.memory = some mm ∧ mm.write (a : Int) wval = .ok mm2 ∧
          c'.memory = some mm2) ∨
       (c.memory = none ∧ c'.memory = none))) ∧
    (∀ ways vIdx victim,
      ways = c.sets.getD bi [] →
      vIdx = c.selectVictimEntry ways →
      victim = ways.getD vIdx default →
      c.writeBack = true → c.write a wval = .ok (false, c') →
      bi < c.sets.length → vIdx < ways.length →
      ∃ blockData victim' mem' u,
        c.loadBlockFromMemory (c.getBlockStartAddress a) = .ok blockData ∧
        ((victim.valid = true ∧
           c.writeBackIfNeeded victim victim.blockStartAddress = .ok (victim', mem')) ∨
         (victim.valid = false ∧ victim' = victim ∧ mem' = c.memory)) ∧
        c'.memory = mem' ∧ c'.hits = c.hits ∧ c'.misses = c.misses + 1 ∧
        (c'.sets.getD bi []).getD vIdx default =
          { valid := true, tag := t, data := blockData.set bo wval, dirty := true,
            useBit := u, blockStartAddress := c.getBlockStartAddress a } ∧
        (∀ j, j ≠ vIdx → (c'.sets.getD bi []).getD j default = ways.getD j default) ∧
        (1 < c.associativity → ∀ j, j < ways.length → j ≠ vIdx →
          (ways.getD j default).valid = true → (ways.getD j default).useBit < u)) := by
  constructor
  · -- write-through: no write-allocate
    intro hwb hw
    obtain ⟨t2, bi2, bo2, byo2, ways, hcalc2, hways, hcase⟩ := write_spec c a wval false c' hw
    rw [hcalc] at hcalc2
    simp only [Except.ok.injEq, Prod.mk.injEq] at hcalc2
    obtain ⟨ht, hbi, hbo, hbyo⟩ := hcalc2
    subst ht hbi hbo hbyo
    rcases hcase with ⟨i, e', hfind2, -, -, -⟩ | ⟨-, -, hpol⟩
    · rw [hways, hfind] at hfind2
      exact absurd hfind2 (by simp)
    · rcases hpol with ⟨-, mem', hmemdisj, hc'⟩ | ⟨hwb', -⟩
      · subst hc'
        refine ⟨rfl, rfl, rfl, ?_⟩
        rcases hmemdisj with ⟨mm, mm2, h1, h2, h3⟩ | ⟨h1, h2⟩
        · exact .inl ⟨mm, mm2, h1, h2, h3⟩
        · exact .inr ⟨h1, h2⟩
      · rw [hwb] at hwb'
        exact absurd hwb' (by simp)
  · -- write-back: write-allocate
    intro ways vIdx victim hways hvIdx hvict hwb hw hbilt hvlt
    subst hvict
    subst hvIdx
    subst hways
    obtain ⟨t2, bi2, bo2, byo2, ways2, hcalc2, hways2, hcase⟩ := write_spec c a wval false c' hw
    rw [hcalc] at hcalc2
    simp only [Except.ok.injEq, Prod.mk.injEq] at hcalc2
    obtain ⟨ht, hbi, hbo, hbyo⟩ := hcalc2
    subst ht hbi hbo hbyo
    subst hways2
    rcases hcase with ⟨i, e', hfind2, -, -, -⟩ | ⟨-, -, hpol⟩
    · rw [hfind] at hfind2
      exact absurd hfind2 (by simp)
    · rcases hpol with ⟨hwb', -⟩ | ⟨-, bd, victim', mem', vIdx2, victim2, hvIdx2, hvict2, hload, hdisj, hc'⟩
      · rw [hwb] at hwb'
        exact absurd hwb' (by simp)
      · subst hvIdx2
        subst hvict2
        subst hc'
        set W := c.sets.getD bi [] with hW
        set VI := c.selectVictimEntry W with hVI
        set newEntry : CacheEntry :=
          { victim' with
              valid := true
              tag := t
              data := bd.set bo wval
              dirty := true
              blockStartAddress := c.getBlockStartAddress a } with hnew
        have hsetbi : ((c.sets.set bi (c.updateLRU (W.set VI newEntry) VI)).getD bi [])
            = c.updateLRU (W.set VI newEntry) VI :=
          getD_set_self _ _ _ _ hbilt
        have hinner : (W.set VI newEntry).getD VI default = newEntry :=
          getD_set_self _ _ _ _ hvlt
        by_cases hassoc : 1 < c.associativity
        · refine ⟨bd, victim', mem',
            ((W.set VI newEntry).filter fun e => e.valid).foldl
              (fun mx e => max mx e.useBit) 0 + 1,
            hload, hdisj, rfl, rfl, rfl, ?_, ?_, ?_⟩
          · show ((c.sets.set bi (c.updateLRU (W.set VI newEntry) VI)).getD bi []).getD
                VI default = _
            rw [hsetbi,
              updateLRU_getD_self c _ VI hassoc (by rw [List.length_set]; exact hvlt),
              hinner]
          · intro j hj
            show ((c.sets.set bi (c.updateLRU (W.set VI newEntry) VI)).getD bi []).getD
                j default = _
            rw [hsetbi, updateLRU_getD_ne c _ VI j hj,
              getD_set_ne _ _ _ _ _ (fun he => hj he.symm)]
          · intro _ j hjlt hj hvj
            have hmem2 : W.getD j default ∈ (W.set VI newEntry).filter
                fun e => e.valid := by
              rw [List.mem_filter]
              constructor
              · rw [← getD_set_ne W VI j newEntry default (fun he => hj he.symm)]
                exact getD_mem _ j default (by rw [List.length_set]; exact hjlt)
              · rw [hvj]
            have := foldl_max_le_mem _ 0 _ hmem2
            omega
        · refine ⟨bd, victim', mem', victim'.useBit, hload, hdisj, rfl, rfl, rfl, ?_, ?_, ?_⟩
          · show ((c.sets.set bi (c.updateLRU (W.set VI newEntry) VI)).getD bi []).getD
                VI default = _
            rw [hsetbi, updateLRU_of_assoc_le c _ VI hassoc, hinner]
          · intro j hj
            show ((c.sets.set bi (c.updateLRU (W.set VI newEntry) VI)).getD bi []).getD
                j default = _
            rw [hsetbi, updateLRU_of_assoc_le c _ VI hassoc,
              getD_set_ne _ _ _ _ _ (fun he => hj he.symm)]
          · intro hcontra
            exact absurd hcontra hassoc

/-- Witness for C4: a write-through write miss on a fresh cache leaves the
cache structure untouched, and a write-back write miss on a fresh 2-way
cache allocates the written block. -/
theorem c4_witness :
    (c4AfterWT.sets = c4CacheWT.sets ∧ c4AfterWT.hits = c4CacheWT.hits ∧
      c4AfterWT.misses = c4CacheWT.misses + 1 ∧
      ((∃ mm mm2, c4CacheWT.memory = some mm ∧ mm.write (0 : Int) 5 = .ok mm2 ∧
          c4AfterWT.memory = some mm2) ∨
       (c4CacheWT.memory = none ∧ c4AfterWT.memory = none))) ∧
    (∃ blockData victim' mem' u,
      c4CacheWB.loadBlockFromMemory (c4CacheWB.getBlockStartAddress 0) = .ok blockData ∧
      ((((c4CacheWB.sets.getD 0 []).getD
            (c4CacheWB.selectVictimEntry (c4CacheWB.sets.getD 0 [])) default).valid = true ∧
         c4CacheWB.writeBackIfNeeded
           ((c4CacheWB.sets.getD 0 []).getD
             (c4CacheWB.selectVictimEntry (c4CacheWB.sets.getD 0 [])) default)
           (((c4CacheWB.sets.getD 0 []).getD
             (c4CacheWB.selectVictimEntry (c4CacheWB.sets.getD 0 [])) default).blockStartAddress)
           = .ok (victim', mem')) ∨
       ((((c4CacheWB.sets.getD 0 []).getD
            (c4CacheWB.selectVictimEntry (c4CacheWB.sets.getD 0 [])) default).valid = false) ∧
         victim' = ((c4CacheWB.sets.getD 0 []).getD
            (c4CacheWB.selectVictimEntry (c4CacheWB.sets.getD 0 [])) default) ∧
         mem' = c4CacheWB.memory)) ∧
      c4AfterWB.memory = mem' ∧ c4AfterWB.hits = c4CacheWB.hits ∧
      c4AfterWB.misses = c4CacheWB.misses + 1 ∧
      (c4AfterWB.sets.getD 0 []).getD
          (c4CacheWB.selectVictimEntry (c4CacheWB.sets.getD 0 [])) default =
        { valid := true, tag := 0, data := ([0] : List Nat).set 0 5, dirty := true,
          useBit := u, blockStartAddress := c4CacheWB.getBlockStartAddress 0 } ∧
      (∀ j, j ≠ c4CacheWB.selectVictimEntry (c4CacheWB.sets.getD 0 []) →
        (c4AfterWB.sets.getD 0 []).getD j default = (c4CacheWB.sets.getD 0 []).getD j default) ∧
      (1 < c4CacheWB.associativity →
        ∀ j, j < (c4CacheWB.sets.getD 0 []).length →
          j ≠ c4CacheWB.selectVictimEntry (c4CacheWB.sets.getD 0 []) →
          ((c4CacheWB.sets.getD 0 []).getD j default).valid = true →
          ((c4CacheWB.sets.getD 0 []).getD j default).useBit < u)) := by
  constructor
  · exact (c4_write_miss c4CacheWT 0 5 0 0 0 0 c4AfterWT rfl rfl).1 rfl rfl
  · obtain ⟨bd, victim', mem', u, hrest⟩ :=
      (c4_write_miss c4CacheWB 0 5 0 0 0 0 c4AfterWB rfl rfl).2
        (c4CacheWB.sets.getD 0 []) (c4CacheWB.selectVictimEntry (c4CacheWB.sets.getD 0 []))
        ((c4CacheWB.sets.getD 0 []).getD
          (c4CacheWB.selectVictimEntry (c4CacheWB.sets.getD 0 [])) default)
        rfl rfl rfl rfl rfl (by decide) (by decide)
    have hbd : bd = [0] := by
      have := hrest.1
      rw [show c4CacheWB.loadBlockFromMemory (c4CacheWB.getBlockStartAddress 0)
            = .ok [0] from rfl] at this
      simpa using this.symm
    subst hbd
    exact ⟨[0], victim', mem', u, hrest⟩

/-! ## Scan and victim-selection characterizations -/

/-- The first index satisfying the predicate is the one findIdx? returns
(with an arbitrary start offset). -/
lemma findIdx?_offset_first {α : Type} (p : α → Bool) (d : α) :
    ∀ (l : List α) (j i : Nat), j < l.length → p (l.getD j d) = true →
      (∀ k, k < j → p (l.getD k d) = false) → List.findIdx? p l i = some (i + j) := by
  intro l
  induction l with
  | nil =>
      intro j i hj
      exact absurd hj (by simp)
  | cons x xs ih =>
      intro j i hj hp hfirst
      rw [List.findIdx?_cons]
      cases j with
      | zero =>
          rw [List.getD_cons_zero] at hp
          rw [if_pos hp, Nat.add_zero]
      | succ k =>
          have hx : p x = false := by
            have := hfirst 0 (Nat.succ_pos k)
            rwa [List.getD_cons_zero] at this
          rw [if_neg (by rw [hx]; simp)]
          have hres := ih k (i + 1) (by simpa using hj)
            (by rwa [List.getD_cons_succ] at hp)
            (fun k2 hk2 => by
              have := hfirst (k2 + 1) (by omega)
              rwa [List.getD_cons_succ] at this)
          rw [hres]
          congr 1
          omega

/-- A nodup list has distinct getD values at distinct in-range indices. -/
lemma nodup_getD_ne (ts : List Nat) (h : ts.Nodup) (i j : Nat)
    (hi : i < ts.length) (hj : j < ts.length) (hne : i ≠ j) :
    ts.getD i 0 ≠ ts.getD j 0 := by
  rw [List.getD_eq_getElem?_getD, List.getD_eq_getElem?_getD,
    List.getElem?_eq_getElem hi, List.getElem?_eq_getElem hj]
  intro he
  simp only [Option.getD_some] at he
  exact hne (h.getElem_inj_iff.mp he)

/-- The victim scan returns the first invalid way when one exists. -/
lemma selectVictimLoop_first_invalid :
    ∀ (l : List CacheEntry) (i best bu : Nat),
      (∃ j, j < l.length ∧ (l.getD j default).valid = false) →
      ∃ j, j < l.length ∧ selectVictimLoop l i best bu = i + j ∧
        (l.getD j default).valid = false ∧ ∀ k, k < j → (l.getD k default).valid = true := by
  intro l
  induction l with
  | nil =>
      rintro i best bu ⟨j, hj, -⟩
      exact absurd hj (by simp)
  | cons x xs ih =>
      intro i best bu hex
      rw [selectVictimLoop]
      by_cases hx : x.valid
      · rw [if_neg (by rw [hx]; simp)]
        have hex' : ∃ j, j < xs.length ∧ (xs.getD j default).valid = false := by
          obtain ⟨j, hj, hval⟩ := hex
          cases j with
          | zero =>
              rw [List.getD_cons_zero] at hval
              rw [hx] at hval
              exact absurd hval (by simp)
          | succ k =>
              rw [List.getD_cons_succ] at hval
              exact ⟨k, by simpa using hj, hval⟩
        split
        · obtain ⟨j, hj, hres, hval, hfirst⟩ := ih (i + 1) i x.useBit hex'
          refine ⟨j + 1, by simpa using hj, by rw [hres]; omega, ?_, ?_⟩
          · rwa [List.getD_cons_succ]
          · intro k hk
            cases k with
            | zero => rw [List.getD_cons_zero]; exact hx
            | succ k2 => rw [List.getD_cons_succ]; exact hfirst k2 (by omega)
        · obtain ⟨j, hj, hres, hval, hfirst⟩ := ih (i + 1) best bu hex'
          refine ⟨j + 1, by simpa using hj, by rw [hres]; omega, ?_, ?_⟩
          · rwa [List.getD_cons_succ]
          · intro k hk
            cases k with
            | zero => rw [List.getD_cons_zero]; exact hx
            | succ k2 => rw [List.getD_cons_succ]; exact hfirst k2 (by omega)
      · rw [if_pos (by revert hx; cases x.valid <;> simp)]
        refine ⟨0, by simp, by omega, ?_, by omega⟩
        rw [List.getD_cons_zero]
        revert hx
        cases x.valid <;> simp

/-- On an all-valid list the victim scan returns either the incoming best
index (whose score bounds the whole list from below) or an index holding
a minimal use counter. -/
lemma selectVictimLoop_all_valid_min :
    ∀ (l : List CacheEntry) (i best bu : Nat), (∀ e ∈ l, e.valid = true) →
      (selectVictimLoop l i best bu = best ∧ ∀ e ∈ l, bu ≤ e.useBit) ∨
      (∃ j, j < l.length ∧ selectVictimLoop l i best bu = i + j ∧
        (l.getD j default).useBit < bu ∧ ∀ e ∈ l, (l.getD j default).useBit ≤ e.useBit) := by
  intro l
  induction l with
  | nil =>
      intro i best bu hv
      exact .inl ⟨rfl, by simp⟩
  | cons x xs ih =>
      intro i best bu hv
      have hx : x.valid = true := hv x (List.mem_cons_self x xs)
      rw [selectVictimLoop, if_neg (by rw [hx]; simp)]
      by_cases hlt : x.useBit < bu
      · rw [if_pos hlt]
        rcases ih (i + 1) i x.useBit (fun e he => hv e (List.mem_cons_of_mem x he)) with
          ⟨hres, hbnd⟩ | ⟨j, hj, hres, hjlt, hbnd⟩
        · refine .inr ⟨0, by simp, by omega, ?_, ?_⟩
          · rw [List.getD_cons_zero]; exact hlt
          · intro e he
            rw [List.getD_cons_zero]
            rcases List.mem_cons.mp he with rfl | hxs
            · exact le_refl _
            · exact hbnd e hxs
        · refine .inr ⟨j + 1, by simpa using hj, by rw [hres]; omega, ?_, ?_⟩
          · rw [List.getD_cons_succ]; omega
          · intro e he
            rw [List.getD_cons_succ]
            rcases List.mem_cons.mp he with rfl | hxs
            · omega
            · exact hbnd e hxs
      · rw [if_neg hlt]
        rcases ih (i + 1) best bu (fun e he => hv e (List.mem_cons_of_mem x he)) with
          ⟨hres, hbnd⟩ | ⟨j, hj, hres, hjlt, hbnd⟩
        · refine .inl ⟨hres, ?_⟩
          intro e he
          rcases List.mem_cons.mp he with rfl | hxs
          · omega
          · exact hbnd e hxs
        · refine .inr ⟨j + 1, by simpa using hj, by rw [hres]; omega, ?_, ?_⟩
          · rw [List.getD_cons_succ]; exact hjlt
          · intro e he
            rw [List.getD_cons_succ]
            rcases List.mem_cons.mp he with rfl | hxs
            · omega
            · exact hbnd e hxs

/-- For set-associative caches, the victim is the first invalid way when
one exists. -/
lemma selectVictimEntry_invalid (c : CacheSimulator) (ways : List CacheEntry)
    (hassoc : c.associativity ≠ 1)
    (hex : ∃ j, j < ways.length ∧ (ways.getD j default).valid = false) :
    ∃ j, j < ways.length ∧ c.selectVictimEntry ways = j ∧
      (ways.getD j default).valid = false ∧
      ∀ k, k < j → (ways.getD k default).valid = true := by
  unfold CacheSimulator.selectVictimEntry
  rw [if_neg hassoc]
  match ways, hex with
  | [], ⟨j, hj, _⟩ => exact absurd hj (by simp)
  | e0 :: rest, hex =>
      obtain ⟨j, hj, hres, hval, hfirst⟩ :=
        selectVictimLoop_first_invalid (e0 :: rest) 0 0 e0.useBit hex
      refine ⟨j, hj, ?_, hval, hfirst⟩
      show selectVictimLoop (e0 :: rest) 0 0 e0.useBit = j
      rw [hres]
      omega

/-- For set-associative caches with every way valid, the victim way holds
a minimal use counter. -/
lemma selectVictimEntry_min (c : CacheSimulator) (ways : List CacheEntry)
    (hassoc : c.associativity ≠ 1) (hne : ways ≠ [])
    (hvalid : ∀ e ∈ ways, e.valid = true) :
    ∃ j, j < ways.length ∧ c.selectVictimEntry ways = j ∧
      ∀ e ∈ ways, (ways.getD j default).useBit ≤ e.useBit := by
  unfold CacheSimulator.selectVictimEntry
  rw [if_neg hassoc]
  match ways, hne, hvalid with
  | e0 :: rest, _, hvalid =>
      rcases selectVictimLoop_all_valid_min (e0 :: rest) 0 0 e0.useBit hvalid with
        ⟨hres, hbnd⟩ | ⟨j, hj, hres, hjlt, hbnd⟩
      · refine ⟨0, by simp, ?_, ?_⟩
        · show selectVictimLoop (e0 :: rest) 0 0 e0.useBit = 0
          exact hres
        · intro e he
          rw [List.getD_cons_zero]
          exact hbnd e he
      · refine ⟨j, hj, ?_, hbnd⟩
        show selectVictimLoop (e0 :: rest) 0 0 e0.useBit = j
        rw [hres]
        omega

/-! ## Congruence along the frame-invariant fields -/

lemma calc_congr (c0 c : CacheSimulator) (h : FrameInv c0 c) (a : Nat) :
    c.calculate_address_components a = c0.calculate_address_components a := by
  obtain ⟨h1, h2, h3, h4, -, -, -, -⟩ := h
  unfold CacheSimulator.calculate_address_components
  rw [h1, h2, h3, h4]

lemma getBlockStart_congr (c0 c : CacheSimulator) (h : FrameInv c0 c) (a : Nat) :
    c.getBlockStartAddress a = c0.getBlockStartAddress a := by
  obtain ⟨h1, h2, -, -, -, -, -, -⟩ := h
  unfold CacheSimulator.getBlockStartAddress
  rw [h1, h2]

lemma load_congr (c0 c : CacheSimulator) (h : FrameInv c0 c) (x : Nat) :
    c.loadBlockFromMemory x = c0.loadBlockFromMemory x := by
  obtain ⟨-, -, -, -, h5, h6, -, -⟩ := h
  unfold CacheSimulator.loadBlockFromMemory
  rw [h5, h6]

lemma selectVictim_congr (c0 c : CacheSimulator) (h : FrameInv c0 c)
    (ways : List CacheEntry) : c.selectVictimEntry ways = c0.selectVictimEntry ways := by
  obtain ⟨-, -, -, -, -, -, h7, -⟩ := h
  unfold CacheSimulator.selectVictimEntry
  rw [h7]

lemma updateLRU_congr (c0 c : CacheSimulator) (h : FrameInv c0 c)
    (ways : List CacheEntry) (i : Nat) : c.updateLRU ways i = c0.updateLRU ways i := by
  obtain ⟨-, -, -, -, -, -, h7, -⟩ := h
  unfold CacheSimulator.updateLRU
  rw [h7]

/-! ## Forward evaluation of the read path -/

/-- A clean entry is never written back: the entry and memory come back
unchanged. -/
lemma writeBackIfNeeded_clean (c : CacheSimulator) (e : CacheEntry) (addr : Nat)
    (h : e.dirty = false) : c.writeBackIfNeeded e addr = .ok (e, c.memory) := by
  unfold CacheSimulator.writeBackIfNeeded
  cases hm : c.memory with
  | none => rfl
  | some mm =>
      rw [h]
      simp

/-- Forward evaluation of a read hit. -/
lemma read_hit_eq (c : CacheSimulator) (a t bi bo byo i : Nat)
    (hcalc : c.calculate_address_components a = .ok (t, bi, bo, byo))
    (hfind : CacheSimulator.findEntryInSet (c.sets.getD bi []) t = some i) :
    c.read a = .ok (true, ((c.sets.getD bi []).getD i default).data.getD bo 0,
      { c with
          hits := c.hits + 1
          sets := c.sets.set bi (c.updateLRU (c.sets.getD bi []) i) }) := by
  unfold CacheSimulator.read
  simp only [Except.instMonad, Except.bind, hcalc, hfind]
  rfl

/-- Forward evaluation of a read miss whose victim is clean: the block is
loaded, nothing is written back, and the new block is installed at the
victim way with a refreshed LRU stamp. -/
lemma read_miss_clean_eq (c : CacheSimulator) (a t bi bo byo : Nat) (bd : List Nat)
    (hcalc : c.calculate_address_components a = .ok (t, bi, bo, byo))
    (hfind : CacheSimulator.findEntryInSet (c.sets.getD bi []) t = none)
    (hload : c.loadBlockFromMemory (c.getBlockStartAddress a) = .ok bd)
    (hdirty : ((c.sets.getD bi []).getD (c.selectVictimEntry (c.sets.getD bi []))
        default).dirty = false) :
    c.read a = .ok (false, bd.getD bo 0,
      { c with
          misses := c.misses + 1
          sets := c.sets.set bi (c.updateLRU ((c.sets.getD bi []).set
            (c.selectVictimEntry (c.sets.getD bi []))
            { (c.sets.getD bi []).getD (c.selectVictimEntry (c.sets.getD bi [])) default with
                valid := true
                tag := t
                data := bd
                dirty := false
                blockStartAddress := c.getBlockStartAddress a })
            (c.selectVictimEntry (c.sets.getD bi []))) }) := by
  have hload' : ({ c with misses := c.misses + 1 } : CacheSimulator).loadBlockFromMemory
      (c.getBlockStartAddress a) = .ok bd := hload
  have hdirty' : ((c.sets.getD bi []).getD
      (({ c with misses := c.misses + 1 } : CacheSimulator).selectVictimEntry
        (c.sets.getD bi [])) default).dirty = false := hdirty
  unfold CacheSimulator.read
  simp only [Except.instMonad, Except.bind, hcalc, hfind, hload']
  split
  · rw [writeBackIfNeeded_clean _ _ _ hdirty']
    rfl
  · rfl

/-- Forward evaluation of an iterated read. -/
lemma readSeq_cons_eq (c c' c'' : CacheSimulator) (x : Nat) (xs : List Nat)
    (h1 : Bool) (v : Nat) (hs : List Bool)
    (hx : c.read x = .ok (h1, v, c'))
    (hxs : readSeq c' xs = .ok (hs, c'')) :
    readSeq c (x :: xs) = .ok (h1 :: hs, c'') := by
  unfold readSeq
  simp only [Except.instMonad, Except.bind, hx, hxs]

/-! ## The LRU scenario: filling a set with distinct tags -/

@[simp] lemma mk0_valid (bw : Nat) : (CacheEntry.mk0 bw).valid = false := rfl

@[simp] lemma mk0_dirty (bw : Nat) : (CacheEntry.mk0 bw).dirty = false := rfl

@[simp] lemma mk0_useBit (bw : Nat) : (CacheEntry.mk0 bw).useBit = 0 := rfl

@[simp] lemma mk0_tag (bw : Nat) : (CacheEntry.mk0 bw).tag = 0 := rfl

lemma getD_eq_getElem {α : Type} (l : List α) (d : α) {n : Nat} (h : n < l.length) :
    l.getD n d = l[n] := by
  rw [List.getD_eq_getElem?_getD, List.getElem?_eq_getElem h]
  rfl

/-- Reading the k-th scenario address on a set filled with the first k
tags misses, fills the first invalid way (way k) and preserves the fill
invariant. -/
lemma fill_step (c0 : CacheSimulator) (s : Nat) (as ts bos byos : List Nat)
    (bds : List (List Nat)) (k : Nat) (c : CacheSimulator)
    (hassoc : 2 ≤ c0.associativity)
    (hnodup : ts.Nodup) (hts_len : ts.length = c0.associativity)
    (hdec : ∀ i, i < c0.associativity → c0.calculate_address_components (as.getD i 0)
      = .ok (ts.getD i 0, s, bos.getD i 0, byos.getD i 0))
    (hload : ∀ i, i < c0.associativity → c0.loadBlockFromMemory
      (c0.getBlockStartAddress (as.getD i 0)) = .ok (bds.getD i []))
    (hs : s < c0.sets.length)
    (hk : k < c0.associativity)
    (hinv : FillInv c0 s ts k c) :
    ∃ v c', c.read (as.getD k 0) = .ok (false, v, c') ∧ FillInv c0 s ts (k + 1) c' := by
  obtain ⟨hframe, hlen, hpre, hsuf, hdist⟩ := hinv
  have hassoc1 : c.associativity ≠ 1 := by
    rw [hframe.2.2.2.2.2.2.1]
    omega
  have hassoc1' : 1 < c.associativity := by
    rw [hframe.2.2.2.2.2.2.1]
    omega
  have hcalc : c.calculate_address_components (as.getD k 0)
      = .ok (ts.getD k 0, s, bos.getD k 0, byos.getD k 0) := by
    rw [calc_congr c0 c hframe]
    exact hdec k hk
  -- the k-th tag is not yet in the set
  have hfind : CacheSimulator.findEntryInSet (c.sets.getD s []) (ts.getD k 0) = none := by
    rw [CacheSimulator.findEntryInSet, List.findIdx?_eq_none_iff]
    intro e he
    obtain ⟨j, hj, hje⟩ := List.mem_iff_getElem.mp he
    rw [← getD_eq_getElem _ default hj] at hje
    subst hje
    rw [hlen] at hj
    by_cases hjk : j < k
    · obtain ⟨-, htag, -⟩ := hpre j hjk
      rw [htag]
      have : ts.getD j 0 ≠ ts.getD k 0 :=
        nodup_getD_ne ts hnodup j k (by omega) (by omega) (by omega)
      simp only [Bool.and_eq_false_iff]
      right
      simpa using this
    · rw [hsuf j (by omega) hj]
      simp
  -- the victim is the first invalid way, namely way k
  have hvict : c.selectVictimEntry (c.sets.getD s []) = k := by
    obtain ⟨j, hj, hres, hval, hfirst⟩ := selectVictimEntry_invalid c
      (c.sets.getD s []) hassoc1
      ⟨k, by rw [hlen]; exact hk, by rw [hsuf k (le_refl k) hk]; simp⟩
    have hjk : j = k := by
      rw [hlen] at hj
      by_cases h1 : j < k
      · obtain ⟨hv, -, -⟩ := hpre j h1
        rw [hv] at hval
        exact absurd hval (by simp)
      · by_cases h2 : k < j
        · have := hfirst k h2
          rw [hsuf k (le_refl k) hk] at this
          simp at this
        · omega
    rw [hres, hjk]
  have hloadc : c.loadBlockFromMemory (c.getBlockStartAddress (as.getD k 0))
      = .ok (bds.getD k []) := by
    rw [load_congr c0 c hframe, getBlockStart_congr c0 c hframe]
    exact hload k hk
  have hkw : k < (c.sets.getD s []).length := by
    rw [hlen]
    exact hk
  have hdirty : ((c.sets.getD s []).getD (c.selectVictimEntry (c.sets.getD s []))
      default).dirty = false := by
    rw [hvict, hsuf k (le_refl k) hk]
    simp
  refine ⟨(bds.getD k []).getD (bos.getD k 0) 0, _,
    read_miss_clean_eq c (as.getD k 0) (ts.getD k 0) s (bos.getD k 0) (byos.getD k 0)
      (bds.getD k []) hcalc hfind hloadc hdirty, ?_⟩
  -- the new state satisfies the invariant for k + 1
  rw [hvict]
  set newE : CacheEntry :=
    { (c.sets.getD s []).getD k default with
        valid := true
        tag := ts.getD k 0
        data := bds.getD k []
        dirty := false
        blockStartAddress := c.getBlockStartAddress (as.getD k 0) } with hnewE
  set W1 : List CacheEntry := (c.sets.getD s []).set k newE with hW1
  have hW1len : W1.length = (c.sets.getD s []).length := List.length_set _ _ _
  have hs' : s < c.sets.length := by
    rw [hframe.2.2.2.2.2.2.2]
    exact hs
  have hgetset : ((c.sets.set s (c.updateLRU W1 k)).getD s []) = c.updateLRU W1 k :=
    getD_set_self _ _ _ _ hs'
  have hW1k : W1.getD k default = newE := getD_set_self _ _ _ _ hkw
  have hW1ne : ∀ j, j ≠ k → W1.getD j default = (c.sets.getD s []).getD j default :=
    fun j hj => getD_set_ne _ _ _ _ _ (fun he => hj he.symm)
  have hWk : (c.updateLRU W1 k).getD k default
      = { newE with useBit := ((W1.filter fun e => e.valid).foldl
          (fun mx e => max mx e.useBit) 0) + 1 } := by
    rw [updateLRU_getD_self c W1 k hassoc1' (by rw [hW1len]; exact hkw), hW1k]
  have hWne : ∀ j, j ≠ k → (c.updateLRU W1 k).getD j default
      = (c.sets.getD s []).getD j default := by
    intro j hj
    rw [updateLRU_getD_ne c W1 k j hj, hW1ne j hj]
  -- every previously valid way's use counter is bounded by the fold
  have hbound : ∀ j, j ≠ k → j < (c.sets.getD s []).length →
      ((c.sets.getD s []).getD j default).valid = true →
      ((c.sets.getD s []).getD j default).useBit
        ≤ (W1.filter fun e => e.valid).foldl (fun mx e => max mx e.useBit) 0 := by
    intro j hj hjlt hvj
    have hmem2 : (c.sets.getD s []).getD j default ∈ W1.filter fun e => e.valid := by
      rw [List.mem_filter]
      refine ⟨?_, by rw [hvj]⟩
      rw [← hW1ne j hj]
      exact getD_mem _ j default (by rw [hW1len]; exact hjlt)
    exact foldl_max_le_mem _ 0 _ hmem2
  refine ⟨?_, ?_, ?_, ?_, ?_⟩
  · -- frame
    obtain ⟨f1, f2, f3, f4, f5, f6, f7, f8⟩ := hframe
    refine ⟨f1, f2, f3, f4, f5, f6, f7, ?_⟩
    show (c.sets.set s (c.updateLRU W1 k)).length = c0.sets.length
    rw [List.length_set]
    exact f8
  · -- length
    show ((c.sets.set s (c.updateLRU W1 k)).getD s []).length = c0.associativity
    rw [hgetset, updateLRU_length, hW1len, hlen]
  · -- the first k + 1 ways are valid with the right tags
    intro j hj
    have key : (((c.sets.set s (c.updateLRU W1 k)).getD s []).getD j default).valid = true ∧
        (((c.sets.set s (c.updateLRU W1 k)).getD s []).getD j default).tag = ts.getD j 0 ∧
        (((c.sets.set s (c.updateLRU W1 k)).getD s []).getD j default).dirty = false := by
      rw [hgetset]
      by_cases hjk : j = k
      · subst hjk
        rw [hWk]
        exact ⟨rfl, rfl, rfl⟩
      · rw [hWne j hjk]
        exact hpre j (by omega)
    exact key
  · -- the remaining ways are untouched
    intro j hj1 hj2
    have key : ((c.sets.set s (c.updateLRU W1 k)).getD s []).getD j default
        = CacheEntry.mk0 c0.blockSizeWords := by
      rw [hgetset, hWne j (by omega)]
      exact hsuf j (by omega) hj2
    exact key
  · -- use counters of the first k + 1 ways are pairwise distinct
    intro i j hi hj hij
    have key : (((c.sets.set s (c.updateLRU W1 k)).getD s []).getD i default).useBit
        ≠ (((c.sets.set s (c.updateLRU W1 k)).getD s []).getD j default).useBit := by
      rw [hgetset]
      by_cases hik : i = k
      · subst hik
        rw [hWk, hWne j (by omega)]
        have hvj := (hpre j (by omega)).1
        have := hbound j (by omega) (by rw [hlen]; omega) hvj
        simp only []
        omega
      · by_cases hjk : j = k
        · subst hjk
          rw [hWk, hWne i (by omega)]
          have hvi := (hpre i (by omega)).1
          have := hbound i (by omega) (by rw [hlen]; omega) hvi
          simp only []
          omega
        · rw [hWne i hik, hWne j hjk]
          exact hdist i j (by omega) (by omega) hij
    exact key

/-- Filling the whole target set: reading the remaining scenario addresses
misses once per way and leaves the set fully filled. -/
lemma fill_run (c0 : CacheSimulator) (s : Nat) (as ts bos byos : List Nat)
    (bds : List (List Nat))
    (hassoc : 2 ≤ c0.associativity)
    (hnodup : ts.Nodup) (hts_len : ts.length = c0.associativity)
    (has_len : as.length = c0.associativity)
    (hdec : ∀ i, i < c0.associativity → c0.calculate_address_components (as.getD i 0)
      = .ok (ts.getD i 0, s, bos.getD i 0, byos.getD i 0))
    (hload : ∀ i, i < c0.associativity → c0.loadBlockFromMemory
      (c0.getBlockStartAddress (as.getD i 0)) = .ok (bds.getD i []))
    (hs : s < c0.sets.length) :
    ∀ (n k : Nat) (c : CacheSimulator), k + n = c0.associativity →
      FillInv c0 s ts k c →
      ∃ c', readSeq c (as.drop k) = .ok (List.replicate n false, c') ∧
        FillInv c0 s ts c0.associativity c' := by
  intro n
  induction n with
  | zero =>
      intro k c hkn hinv
      have hk : k = c0.associativity := by omega
      subst hk
      refine ⟨c, ?_, hinv⟩
      rw [List.drop_eq_nil_of_le (le_of_eq has_len)]
      rfl
  | succ n ih =>
      intro k c hkn hinv
      obtain ⟨v, c1, hread, hinv1⟩ := fill_step c0 s as ts bos byos bds k c hassoc
        hnodup hts_len hdec hload hs (by omega) hinv
      obtain ⟨c', hseq, hinvF⟩ := ih (k + 1) c1 (by omega) hinv1
      refine ⟨c', ?_, hinvF⟩
      have hkl : k < as.length := by rw [has_len]; omega
      rw [List.drop_eq_getElem_cons hkl, ← getD_eq_getElem as 0 hkl, List.replicate_succ]
      exact readSeq_cons_eq c c1 c' (as.getD k 0) (as.drop (k + 1)) false v
        (List.replicate n false) hread hseq

/-- Re-reading any of the scenario addresses on the fully filled set hits,
refreshes only the accessed way's use counter and preserves the fill
invariant at full associativity. -/
lemma hit_step (c0 : CacheSimulator) (s : Nat) (as ts bos byos : List Nat)
    (i : Nat) (c : CacheSimulator)
    (hassoc : 2 ≤ c0.associativity)
    (hnodup : ts.Nodup) (hts_len : ts.length = c0.associativity)
    (hdec : ∀ j, j < c0.associativity → c0.calculate_address_components (as.getD j 0)
      = .ok (ts.getD j 0, s, bos.getD j 0, byos.getD j 0))
    (hs : s < c0.sets.length)
    (hi : i < c0.associativity)
    (hinv : FillInv c0 s ts c0.associativity c) :
    ∃ v c', c.read (as.getD i 0) = .ok (true, v, c') ∧
      FillInv c0 s ts c0.associativity c' := by
  obtain ⟨hframe, hlen, hpre, hsuf, hdist⟩ := hinv
  have hassoc1' : 1 < c.associativity := by
    rw [hframe.2.2.2.2.2.2.1]
    omega
  have hcalc : c.calculate_address_components (as.getD i 0)
      = .ok (ts.getD i 0, s, bos.getD i 0, byos.getD i 0) := by
    rw [calc_congr c0 c hframe]
    exact hdec i hi
  have hiw : i < (c.sets.getD s []).length := by
    rw [hlen]
    exact hi
  have hfind : CacheSimulator.findEntryInSet (c.sets.getD s []) (ts.getD i 0) = some i := by
    rw [CacheSimulator.findEntryInSet]
    have hp1 : (fun e : CacheEntry => e.valid && e.tag == ts.getD i 0)
        ((c.sets.getD s []).getD i default) = true := by
      obtain ⟨hv, ht, -⟩ := hpre i hi
      simp only [hv, ht]
      simp
    have hp2 : ∀ k, k < i → (fun e : CacheEntry => e.valid && e.tag == ts.getD i 0)
        ((c.sets.getD s []).getD k default) = false := by
      intro k hk
      obtain ⟨hv, ht, -⟩ := hpre k (by omega)
      have hne : ts.getD k 0 ≠ ts.getD i 0 :=
        nodup_getD_ne ts hnodup k i (by omega) (by omega) (by omega)
      simp only [hv, ht]
      simpa using hne
    have hres := findIdx?_offset_first (fun e => e.valid && e.tag == ts.getD i 0) default
      (c.sets.getD s []) i 0 hiw hp1 hp2
    rw [hres]
    norm_num
  refine ⟨((c.sets.getD s []).getD i default).data.getD (bos.getD i 0) 0, _,
    read_hit_eq c (as.getD i 0) (ts.getD i 0) s (bos.getD i 0) (byos.getD i 0) i
      hcalc hfind, ?_⟩
  set W : List CacheEntry := c.sets.getD s [] with hW
  have hs' : s < c.sets.length := by
    rw [hframe.2.2.2.2.2.2.2]
    exact hs
  have hgetset : (c.sets.set s (c.updateLRU W i)).getD s [] = c.updateLRU W i :=
    getD_set_self _ _ _ _ hs'
  have hbound : ∀ j, j < W.length → (W.getD j default).valid = true →
      (W.getD j default).useBit ≤ (W.filter fun e => e.valid).foldl
        (fun mx e => max mx e.useBit) 0 := by
    intro j hjlt hvj
    exact foldl_max_le_mem _ 0 _ (List.mem_filter.mpr
      ⟨getD_mem _ j default hjlt, by rw [hvj]⟩)
  have hWi : (c.updateLRU W i).getD i default
      = { W.getD i default with useBit := ((W.filter fun e => e.valid).foldl
          (fun mx e => max mx e.useBit) 0) + 1 } :=
    updateLRU_getD_self c W i hassoc1' hiw
  have hWne : ∀ j, j ≠ i → (c.updateLRU W i).getD j default = W.getD j default :=
    fun j hj => updateLRU_getD_ne c W i j hj
  refine ⟨?_, ?_, ?_, ?_, ?_⟩
  · -- frame
    obtain ⟨f1, f2, f3, f4, f5, f6, f7, f8⟩ := hframe
    refine ⟨f1, f2, f3, f4, f5, f6, f7, ?_⟩
    show (c.sets.set s (c.updateLRU W i)).length = c0.sets.length
    rw [List.length_set]
    exact f8
  · -- length
    show ((c.sets.set s (c.updateLRU W i)).getD s []).length = c0.associativity
    rw [hgetset, updateLRU_length]
    exact hlen
  · -- validity, tags and cleanliness of every way are untouched
    intro j hj
    have key : (((c.sets.set s (c.updateLRU W i)).getD s []).getD j default).valid = true ∧
        (((c.sets.set s (c.updateLRU W i)).getD s []).getD j default).tag = ts.getD j 0 ∧
        (((c.sets.set s (c.updateLRU W i)).getD s []).getD j default).dirty = false := by
      rw [hgetset]
      obtain ⟨hv, ht, hd⟩ := hpre j hj
      obtain ⟨g1, g2, -, g4, -⟩ := updateLRU_getD_fields c W i j
      exact ⟨by rw [g1]; exact hv, by rw [g2]; exact ht, by rw [g4]; exact hd⟩
    exact key
  · -- no way is beyond the associativity
    intro j hj1 hj2
    omega
  · -- use counters stay pairwise distinct
    intro a b ha hb hab
    have key : (((c.sets.set s (c.updateLRU W i)).getD s []).getD a default).useBit
        ≠ (((c.sets.set s (c.updateLRU W i)).getD s []).getD b default).useBit := by
      rw [hgetset]
      by_cases hai : a = i
      · subst hai
        rw [hWi, hWne b (by omega)]
        have hvb := (hpre b hb).1
        have := hbound b (by rw [hlen]; exact hb) hvb
        simp only []
        omega
      · by_cases hbi : b = i
        · subst hbi
          rw [hWi, hWne a (by omega)]
          have hva := (hpre a ha).1
          have := hbound a (by rw [hlen]; exact ha) hva
          simp only []
          omega
        · rw [hWne a hai, hWne b hbi]
          exact hdist a b ha hb hab
    exact key

/-- Re-reading the scenario addresses in any order hits every time and
preserves the fill invariant. -/
lemma hits_run (c0 : CacheSimulator) (s : Nat) (as ts bos byos : List Nat)
    (hassoc : 2 ≤ c0.associativity)
    (hnodup : ts.Nodup) (hts_len : ts.length = c0.associativity)
    (hdec : ∀ j, j < c0.associativity → c0.calculate_address_components (as.getD j 0)
      = .ok (ts.getD j 0, s, bos.getD j 0, byos.getD j 0))
    (hs : s < c0.sets.length) :
    ∀ (rs : List Nat) (c : CacheSimulator), (∀ i ∈ rs, i < c0.associativity) →
      FillInv c0 s ts c0.associativity c →
      ∃ c', readSeq c (rs.map fun i => as.getD i 0)
          = .ok (List.replicate rs.length true, c') ∧
        FillInv c0 s ts c0.associativity c' := by
  intro rs
  induction rs with
  | nil =>
      intro c _ hinv
      exact ⟨c, rfl, hinv⟩
  | cons r rs ih =>
      intro c hrs hinv
      obtain ⟨v, c1, hread, hinv1⟩ := hit_step c0 s as ts bos byos r c hassoc hnodup
        hts_len hdec hs (hrs r (List.mem_cons_self r rs)) hinv
      obtain ⟨c', hseq, hinvF⟩ := ih c1
        (fun i hi2 => hrs i (List.mem_cons_of_mem r hi2)) hinv1
      refine ⟨c', ?_, hinvF⟩
      rw [List.map_cons, List.length_cons, List.replicate_succ]
      exact readSeq_cons_eq c c1 c' (as.getD r 0) (rs.map fun i => as.getD i 0) true v
        (List.replicate rs.length true) hread hseq

/-- C2.  For an N-way set-associative cache (N at least 2) whose target set
starts in the reset state: reading N addresses with pairwise distinct tags
that all map to that set misses once per way; re-reading any of them in
any order afterwards is always a hit; the victim scan prefers an invalid
way whenever one exists, and on the subsequent read of an (N+1)-th
distinct tag mapping to the same (now fully valid) set the victim is
exactly the valid way with the strictly smallest recency counter, and the
read evicts only that way, leaving every other way of the set and every
other set unchanged. -/
theorem c2_lru_replacement (c0 : CacheSimulator) (s : Nat)
    (as ts bos byos : List Nat) (bds : List (List Nat))
    (aF tF boF byoF : Nat) (bdF : List Nat) (rs : List Nat)
    (hassoc : 2 ≤ c0.associativity)
    (hnodup : ts.Nodup) (hts_len : ts.length = c0.associativity)
    (has_len : as.length = c0.associativity)
    (hdec : ∀ i, i < c0.associativity → c0.calculate_address_components (as.getD i 0)
      = .ok (ts.getD i 0, s, bos.getD i 0, byos.getD i 0))
    (hload : ∀ i, i < c0.associativity → c0.loadBlockFromMemory
      (c0.getBlockStartAddress (as.getD i 0)) = .ok (bds.getD i []))
    (hs : s < c0.sets.length)
    (hlen0 : (c0.sets.getD s []).length = c0.associativity)
    (hreset : ∀ j, j < c0.associativity →
      (c0.sets.getD s []).getD j default = CacheEntry.mk0 c0.blockSizeWords)
    (hrs : ∀ i ∈ rs, i < c0.associativity)
    (hdecF : c0.calculate_address_components aF = .ok (tF, s, boF, byoF))
    (hloadF : c0.loadBlockFromMemory (c0.getBlockStartAddress aF) = .ok bdF)
    (htF : tF ∉ ts) :
    ∃ cFill cHit,
      readSeq c0 as = .ok (List.replicate c0.associativity false, cFill) ∧
      readSeq cFill (rs.map fun i => as.getD i 0)
        = .ok (List.replicate rs.length true, cHit) ∧
      (∀ ways : List CacheEntry,
        (∃ i, i < ways.length ∧ (ways.getD i default).valid = false) →
        (ways.getD (cHit.selectVictimEntry ways) default).valid = false) ∧
      ∃ vi, cHit.selectVictimEntry (cHit.sets.getD s []) = vi ∧
        vi < c0.associativity ∧
        (∀ j, j < c0.associativity →
          ((cHit.sets.getD s []).getD j default).valid = true) ∧
        (∀ j, j < c0.associativity → j ≠ vi →
          ((cHit.sets.getD s []).getD vi default).useBit
            < ((cHit.sets.getD s []).getD j default).useBit) ∧
        ∃ v cEv, cHit.read aF = .ok (false, v, cEv) ∧
          ((cEv.sets.getD s []).getD vi default).tag = tF ∧
          ((cEv.sets.getD s []).getD vi default).valid = true ∧
          (∀ j, j < c0.associativity → j ≠ vi →
            (cEv.sets.getD s []).getD j default
              = (cHit.sets.getD s []).getD j default) ∧
          (∀ u, u ≠ s → cEv.sets.getD u [] = cHit.sets.getD u []) := by
  have hinv0 : FillInv c0 s ts 0 c0 :=
    ⟨⟨rfl, rfl, rfl, rfl, rfl, rfl, rfl, rfl⟩, hlen0,
     fun j hj => absurd hj (Nat.not_lt_zero j),
     fun j _ hj2 => hreset j hj2,
     fun a b ha _ _ => absurd ha (Nat.not_lt_zero a)⟩
  obtain ⟨cFill, hfillSeq, hinvF⟩ := fill_run c0 s as ts bos byos bds hassoc hnodup
    hts_len has_len hdec hload hs c0.associativity 0 c0 (by omega) hinv0
  rw [List.drop_zero] at hfillSeq
  obtain ⟨cHit, hhitSeq, hinvH⟩ := hits_run c0 s as ts bos byos hassoc hnodup hts_len
    hdec hs rs cFill hrs hinvF
  obtain ⟨hframeH, hlenH, hpreH, -, hdistH⟩ := hinvH
  have hassocH : cHit.associativity ≠ 1 := by
    rw [hframeH.2.2.2.2.2.2.1]
    omega
  refine ⟨cFill, cHit, hfillSeq, hhitSeq, ?_, ?_⟩
  · -- the victim scan prefers an invalid way when one exists
    intro ways hex
    obtain ⟨j, hj, hres, hval, -⟩ := selectVictimEntry_invalid cHit ways hassocH hex
    rw [hres]
    exact hval
  · have hWnil : cHit.sets.getD s [] ≠ [] := by
      intro h
      rw [h] at hlenH
      simp only [List.length_nil] at hlenH
      omega
    have hallv : ∀ e ∈ cHit.sets.getD s [], e.valid = true := by
      intro e he
      obtain ⟨j, hj, hje⟩ := List.mem_iff_getElem.mp he
      rw [← getD_eq_getElem _ default hj] at hje
      subst hje
      exact (hpreH j (by rw [hlenH] at hj; exact hj)).1
    obtain ⟨vi, hviL, hres, hmin⟩ := selectVictimEntry_min cHit (cHit.sets.getD s [])
      hassocH hWnil hallv
    have hviA : vi < c0.associativity := by
      rw [← hlenH]
      exact hviL
    refine ⟨vi, hres, hviA, ?_, ?_, ?_⟩
    · intro j hj
      exact (hpreH j hj).1
    · -- the victim holds the strictly smallest use counter
      intro j hj hjvi
      have hle := hmin _ (getD_mem _ j default (by rw [hlenH]; exact hj))
      have hne := hdistH vi j hviA hj (fun he => hjvi he.symm)
      omega
    · have hcalcF : cHit.calculate_address_components aF = .ok (tF, s, boF, byoF) := by
        rw [calc_congr c0 cHit hframeH]
        exact hdecF
      have hfindF : CacheSimulator.findEntryInSet (cHit.sets.getD s []) tF = none := by
        rw [CacheSimulator.findEntryInSet, List.findIdx?_eq_none_iff]
        intro e he
        obtain ⟨j, hj, hje⟩ := List.mem_iff_getElem.mp he
        rw [← getD_eq_getElem _ default hj] at hje
        subst hje
        rw [hlenH] at hj
        obtain ⟨-, ht, -⟩ := hpreH j hj
        rw [ht]
        have hmem : ts.getD j 0 ∈ ts := getD_mem ts j 0 (by rw [hts_len]; exact hj)
        have hne : ts.getD j 0 ≠ tF := fun he2 => htF (he2 ▸ hmem)
        simp only [Bool.and_eq_false_iff]
        right
        simpa using hne
      have hloadF' : cHit.loadBlockFromMemory (cHit.getBlockStartAddress aF)
          = .ok bdF := by
        rw [load_congr c0 cHit hframeH, getBlockStart_congr c0 cHit hframeH]
        exact hloadF
      have hdirtyF : ((cHit.sets.getD s []).getD
          (cHit.selectVictimEntry (cHit.sets.getD s [])) default).dirty = false := by
        rw [hres]
        exact (hpreH vi hviA).2.2
      have hread := read_miss_clean_eq cHit aF tF s boF byoF bdF hcalcF hfindF
        hloadF' hdirtyF
      rw [hres] at hread
      have hsH : s < cHit.sets.length := by
        rw [hframeH.2.2.2.2.2.2.2]
        exact hs
      set newE : CacheEntry :=
        { (cHit.sets.getD s []).getD vi default with
            valid := true
            tag := tF
            data := bdF
            dirty := false
            blockStartAddress := cHit.getBlockStartAddress aF } with hnewE
      set W2 : List CacheEntry := (cHit.sets.getD s []).set vi newE with hW2
      refine ⟨bdF.getD boF 0, _, hread, ?_, ?_, ?_, ?_⟩
      · have key : (((cHit.sets.set s (cHit.updateLRU W2 vi)).getD s []).getD vi
            default).tag = tF := by
          rw [getD_set_self _ _ _ _ hsH, (updateLRU_getD_fields cHit W2 vi vi).2.1, hW2,
            getD_set_self _ _ _ _ hviL, hnewE]
        exact key
      · have key : (((cHit.sets.set s (cHit.updateLRU W2 vi)).getD s []).getD vi
            default).valid = true := by
          rw [getD_set_self _ _ _ _ hsH, (updateLRU_getD_fields cHit W2 vi vi).1, hW2,
            getD_set_self _ _ _ _ hviL, hnewE]
        exact key
      · intro j hj hjvi
        have key : ((cHit.sets.set s (cHit.updateLRU W2 vi)).getD s []).getD j default
            = (cHit.sets.getD s []).getD j default := by
          rw [getD_set_self _ _ _ _ hsH, updateLRU_getD_ne cHit W2 vi j hjvi, hW2,
            getD_set_ne _ _ _ _ _ (fun he => hjvi he.symm)]
        exact key
      · intro u hu
        have key : (cHit.sets.set s (cHit.updateLRU W2 vi)).getD u []
            = cHit.sets.getD u [] :=
          getD_set_ne _ _ _ _ _ (fun he => hu he.symm)
        exact key

/-- C2 witness: the concrete 2-way scenario on c2Cache.  Addresses 0 and 16
(tags 0 and 1, both set 0) fill the set with two misses; re-reading them in
the order 16, 0, 16 hits three times; address 32 (tag 2, set 0) then evicts
exactly the least-recently-used way. -/
theorem c2_witness :
    ([0, 1] : List Nat).Nodup ∧
    (∃ cFill cHit,
      readSeq c2Cache [0, 16] = .ok ([false, false], cFill) ∧
      readSeq cFill [16, 0, 16] = .ok ([true, true, true], cHit) ∧
      (∀ ways : List CacheEntry,
        (∃ i, i < ways.length ∧ (ways.getD i default).valid = false) →
        (ways.getD (cHit.selectVictimEntry ways) default).valid = false) ∧
      ∃ vi, cHit.selectVictimEntry (cHit.sets.getD 0 []) = vi ∧
        vi < 2 ∧
        (∀ j, j < 2 → ((cHit.sets.getD 0 []).getD j default).valid = true) ∧
        (∀ j, j < 2 → j ≠ vi →
          ((cHit.sets.getD 0 []).getD vi default).useBit
            < ((cHit.sets.getD 0 []).getD j default).useBit) ∧
        ∃ v cEv, cHit.read 32 = .ok (false, v, cEv) ∧
          ((cEv.sets.getD 0 []).getD vi default).tag = 2 ∧
          ((cEv.sets.getD 0 []).getD vi default).valid = true ∧
          (∀ j, j < 2 → j ≠ vi →
            (cEv.sets.getD 0 []).getD j default
              = (cHit.sets.getD 0 []).getD j default) ∧
          (∀ u, u ≠ 0 → cEv.sets.getD u [] = cHit.sets.getD u [])) :=
  ⟨by decide,
   c2_lru_replacement c2Cache 0 [0, 16] [0, 1] [0, 0] [0, 0] [[0], [0]]
     32 2 0 0 [0] [1, 0, 1]
     (by decide) (by decide) (by decide) (by decide) (by decide) (by decide)
     (by decide) (by decide) (by decide) (by decide) (by decide) (by decide)
     (by decide)⟩

end CacheApp
